import Mathlib

/-!
Verification of the AES implementation in `src/aes/mod.ts` of the
`crypto` repository.  Bytes are modelled as natural numbers; every store
into a `Uint8Array` in the source truncates modulo 256, which is made
explicit with `% 256` exactly where a stored value can exceed one byte.
The PKCS7 padding module (`utils/padding.ts`) is not part of the given
sources and is modelled from the specification where needed.
-/

namespace Crypto

/-- The function `xtime` of `src/aes/mod.ts`: doubling in GF(2^8).
Source: `(x & 0x80) ? ((x << 1) ^ 0x1b) : (x << 1)`.  Note that the
source does not truncate the shifted value to a byte. -/
def xtime (x : Nat) : Nat :=
  if x &&& 0x80 ≠ 0 then (x <<< 1) ^^^ 0x1b else x <<< 1

/-- Left shift by one distributes over xor. -/
theorem shiftLeft_one_xor (x y : Nat) : (x ^^^ y) <<< 1 = x <<< 1 ^^^ y <<< 1 := by
  apply Nat.eq_of_testBit_eq
  intro i
  simp only [Nat.testBit_shiftLeft, Nat.testBit_xor]
  cases decide (i ≥ 1) <;> simp

/-- Reduction modulo 256 distributes over xor. -/
theorem mod256_xor (x y : Nat) : (x ^^^ y) % 256 = x % 256 ^^^ y % 256 := by
  apply Nat.eq_of_testBit_eq
  intro i
  have h : (256 : Nat) = 2 ^ 8 := by norm_num
  simp only [h, Nat.testBit_mod_two_pow, Nat.testBit_xor]
  cases decide (i < 8) <;> simp

/-- The branch condition of `xtime` in terms of bit 7. -/
theorem and128_ne_zero_iff (z : Nat) : (z &&& 0x80 ≠ 0) ↔ z.testBit 7 = true := by
  have h : (0x80 : Nat) = 2 ^ 7 := by norm_num
  rw [h, Nat.and_two_pow]
  cases hz : z.testBit 7 <;> simp [hz]

/-- Four-element xor shuffle used to combine linearity proofs. -/
theorem xor_mix (a b c d : Nat) : (a ^^^ b) ^^^ (c ^^^ d) = (a ^^^ c) ^^^ (b ^^^ d) := by
  rw [Nat.xor_assoc a b, ← Nat.xor_assoc b c, Nat.xor_comm b c, Nat.xor_assoc c b,
    ← Nat.xor_assoc a c]

/-- Closed form of `xtime` as a shift xored with a bit-7 controlled constant. -/
theorem xtime_eq (z : Nat) :
    xtime z = z <<< 1 ^^^ (if z.testBit 7 = true then 0x1b else 0) := by
  unfold xtime
  by_cases h : z &&& 0x80 ≠ 0
  · rw [if_pos h, if_pos ((and128_ne_zero_iff z).mp h)]
  · have h7 : ¬ z.testBit 7 = true := fun hb => h ((and128_ne_zero_iff z).mpr hb)
    rw [if_neg h, if_neg h7, Nat.xor_zero]

/-- The GF(2^8) doubling helper is linear over xor on all of `Nat`:
the conditional reduction constant is controlled by bit 7 only, which is
itself xor-linear. -/
theorem xtime_xor (x y : Nat) : xtime (x ^^^ y) = xtime x ^^^ xtime y := by
  rw [xtime_eq, xtime_eq, xtime_eq, shiftLeft_one_xor, Nat.testBit_xor]
  rw [xor_mix]
  cases hx : x.testBit 7 <;> cases hy : y.testBit 7 <;> simp

/-- Left commutativity of xor, for AC normalisation with simp. -/
theorem xor_left_comm (a b c : Nat) : a ^^^ (b ^^^ c) = b ^^^ (a ^^^ c) := by
  rw [← Nat.xor_assoc, Nat.xor_comm a b, Nat.xor_assoc]

/-- A column of the AES state: four bytes. -/
abbrev Col := Nat × Nat × Nat × Nat

/-- Componentwise xor on columns. -/
def xor4 (u v : Col) : Col :=
  (u.1 ^^^ v.1, u.2.1 ^^^ v.2.1, u.2.2.1 ^^^ v.2.2.1, u.2.2.2 ^^^ v.2.2.2)

/-- One column of `AES.mixColumns` from `src/aes/mod.ts`.  Each output
byte is the in-place `state[i] ^= e ^ xtime(..)` of the source; the
trailing `% 256` is the truncation performed by the `Uint8Array` store. -/
def mixCol (a b c d : Nat) : Col :=
  let e := a ^^^ b ^^^ c ^^^ d
  ((a ^^^ (e ^^^ xtime (a ^^^ b))) % 256,
   (b ^^^ (e ^^^ xtime (b ^^^ c))) % 256,
   (c ^^^ (e ^^^ xtime (c ^^^ d))) % 256,
   (d ^^^ (e ^^^ xtime (d ^^^ a))) % 256)

/-- One column of `AES.invMixColumns` from `src/aes/mod.ts`. -/
def invMixCol (a b c d : Nat) : Col :=
  let e := a ^^^ b ^^^ c ^^^ d
  let z := xtime e
  let x := e ^^^ xtime (xtime (z ^^^ a ^^^ c))
  let y := e ^^^ xtime (xtime (z ^^^ b ^^^ d))
  ((a ^^^ (x ^^^ xtime (a ^^^ b))) % 256,
   (b ^^^ (y ^^^ xtime (b ^^^ c))) % 256,
   (c ^^^ (x ^^^ xtime (c ^^^ d))) % 256,
   (d ^^^ (y ^^^ xtime (d ^^^ a))) % 256)

/-- The forward column mix applied to a packed column. -/
def appMix (t : Col) : Col := mixCol t.1 t.2.1 t.2.2.1 t.2.2.2

/-- The inverse column mix applied to a packed column. -/
def appInv (t : Col) : Col := invMixCol t.1 t.2.1 t.2.2.1 t.2.2.2

/-- The forward column mix is xor-linear. -/
theorem mixCol_xor (a1 b1 c1 d1 a2 b2 c2 d2 : Nat) :
    mixCol (a1 ^^^ a2) (b1 ^^^ b2) (c1 ^^^ c2) (d1 ^^^ d2)
      = xor4 (mixCol a1 b1 c1 d1) (mixCol a2 b2 c2 d2) := by
  simp only [mixCol, xor4, Prod.mk.injEq]
  refine ⟨?_, ?_, ?_, ?_⟩ <;>
    · rw [← mod256_xor]
      congr 1
      simp only [xtime_xor]
      ac_nf

/-- The inverse column mix is xor-linear. -/
theorem invMixCol_xor (a1 b1 c1 d1 a2 b2 c2 d2 : Nat) :
    invMixCol (a1 ^^^ a2) (b1 ^^^ b2) (c1 ^^^ c2) (d1 ^^^ d2)
      = xor4 (invMixCol a1 b1 c1 d1) (invMixCol a2 b2 c2 d2) := by
  simp only [invMixCol, xor4, Prod.mk.injEq]
  refine ⟨?_, ?_, ?_, ?_⟩ <;>
    · rw [← mod256_xor]
      congr 1
      simp only [xtime_xor]
      ac_nf

/-- Inverse column mix applied after the forward mix, packed form. -/
theorem appInv_xor4 (u v : Col) : appInv (xor4 u v) = xor4 (appInv u) (appInv v) := by
  obtain ⟨a1, b1, c1, d1⟩ := u
  obtain ⟨a2, b2, c2, d2⟩ := v
  exact invMixCol_xor a1 b1 c1 d1 a2 b2 c2 d2

/-- Forward column mix distributed over packed xor. -/
theorem appMix_xor4 (u v : Col) : appMix (xor4 u v) = xor4 (appMix u) (appMix v) := by
  obtain ⟨a1, b1, c1, d1⟩ := u
  obtain ⟨a2, b2, c2, d2⟩ := v
  exact mixCol_xor a1 b1 c1 d1 a2 b2 c2 d2

set_option maxRecDepth 8192 in
/-- Basis check for the inverse-after-forward roundtrip, first byte. -/
theorem appInv_mixCol_b1 : ∀ a < 256, appInv (mixCol a 0 0 0) = (a, 0, 0, 0) := by decide

set_option maxRecDepth 8192 in
/-- Basis check for the inverse-after-forward roundtrip, second byte. -/
theorem appInv_mixCol_b2 : ∀ b < 256, appInv (mixCol 0 b 0 0) = (0, b, 0, 0) := by decide

set_option maxRecDepth 8192 in
/-- Basis check for the inverse-after-forward roundtrip, third byte. -/
theorem appInv_mixCol_b3 : ∀ c < 256, appInv (mixCol 0 0 c 0) = (0, 0, c, 0) := by decide

set_option maxRecDepth 8192 in
/-- Basis check for the inverse-after-forward roundtrip, fourth byte. -/
theorem appInv_mixCol_b4 : ∀ d < 256, appInv (mixCol 0 0 0 d) = (0, 0, 0, d) := by decide

set_option maxRecDepth 8192 in
/-- Basis check for the forward-after-inverse roundtrip, first byte. -/
theorem appMix_invMixCol_b1 : ∀ a < 256, appMix (invMixCol a 0 0 0) = (a, 0, 0, 0) := by decide

set_option maxRecDepth 8192 in
/-- Basis check for the forward-after-inverse roundtrip, second byte. -/
theorem appMix_invMixCol_b2 : ∀ b < 256, appMix (invMixCol 0 b 0 0) = (0, b, 0, 0) := by decide

set_option maxRecDepth 8192 in
/-- Basis check for the forward-after-inverse roundtrip, third byte. -/
theorem appMix_invMixCol_b3 : ∀ c < 256, appMix (invMixCol 0 0 c 0) = (0, 0, c, 0) := by decide

set_option maxRecDepth 8192 in
/-- Basis check for the forward-after-inverse roundtrip, fourth byte. -/
theorem appMix_invMixCol_b4 : ∀ d < 256, appMix (invMixCol 0 0 0 d) = (0, 0, 0, d) := by decide

/-- Decomposition of a column into the four byte-basis columns. -/
theorem mixCol_decomp (a b c d : Nat) :
    mixCol a b c d
      = xor4 (mixCol a 0 0 0) (xor4 (mixCol 0 b 0 0) (xor4 (mixCol 0 0 c 0) (mixCol 0 0 0 d))) := by
  rw [← mixCol_xor, ← mixCol_xor, ← mixCol_xor]
  simp

/-- Decomposition of a column into byte-basis columns for the inverse mix. -/
theorem invMixCol_decomp (a b c d : Nat) :
    invMixCol a b c d
      = xor4 (invMixCol a 0 0 0)
          (xor4 (invMixCol 0 b 0 0) (xor4 (invMixCol 0 0 c 0) (invMixCol 0 0 0 d))) := by
  rw [← invMixCol_xor, ← invMixCol_xor, ← invMixCol_xor]
  simp

/-- The inverse column mix undoes the forward column mix on every byte column. -/
theorem invMixCol_mixCol (a b c d : Nat)
    (ha : a < 256) (hb : b < 256) (hc : c < 256) (hd : d < 256) :
    appInv (mixCol a b c d) = (a, b, c, d) := by
  rw [mixCol_decomp, appInv_xor4, appInv_xor4, appInv_xor4,
    appInv_mixCol_b1 a ha, appInv_mixCol_b2 b hb, appInv_mixCol_b3 c hc, appInv_mixCol_b4 d hd]
  simp [xor4]

/-- The forward column mix undoes the inverse column mix on every byte column. -/
theorem mixCol_invMixCol (a b c d : Nat)
    (ha : a < 256) (hb : b < 256) (hc : c < 256) (hd : d < 256) :
    appMix (invMixCol a b c d) = (a, b, c, d) := by
  rw [invMixCol_decomp, appMix_xor4, appMix_xor4, appMix_xor4,
    appMix_invMixCol_b1 a ha, appMix_invMixCol_b2 b hb, appMix_invMixCol_b3 c hc,
    appMix_invMixCol_b4 d hd]
  simp [xor4]

/-- The Rijndael S-box table `AES.SBOX` of `src/aes/mod.ts`. -/
def SBOX : List Nat := [
  0x63,0x7c,0x77,0x7b,0xf2,0x6b,0x6f,0xc5,0x30,0x01,0x67,0x2b,0xfe,0xd7,0xab,0x76,
  0xca,0x82,0xc9,0x7d,0xfa,0x59,0x47,0xf0,0xad,0xd4,0xa2,0xaf,0x9c,0xa4,0x72,0xc0,
  0xb7,0xfd,0x93,0x26,0x36,0x3f,0xf7,0xcc,0x34,0xa5,0xe5,0xf1,0x71,0xd8,0x31,0x15,
  0x04,0xc7,0x23,0xc3,0x18,0x96,0x05,0x9a,0x07,0x12,0x80,0xe2,0xeb,0x27,0xb2,0x75,
  0x09,0x83,0x2c,0x1a,0x1b,0x6e,0x5a,0xa0,0x52,0x3b,0xd6,0xb3,0x29,0xe3,0x2f,0x84,
  0x53,0xd1,0x00,0xed,0x20,0xfc,0xb1,0x5b,0x6a,0xcb,0xbe,0x39,0x4a,0x4c,0x58,0xcf,
  0xd0,0xef,0xaa,0xfb,0x43,0x4d,0x33,0x85,0x45,0xf9,0x02,0x7f,0x50,0x3c,0x9f,0xa8,
  0x51,0xa3,0x40,0x8f,0x92,0x9d,0x38,0xf5,0xbc,0xb6,0xda,0x21,0x10,0xff,0xf3,0xd2,
  0xcd,0x0c,0x13,0xec,0x5f,0x97,0x44,0x17,0xc4,0xa7,0x7e,0x3d,0x64,0x5d,0x19,0x73,
  0x60,0x81,0x4f,0xdc,0x22,0x2a,0x90,0x88,0x46,0xee,0xb8,0x14,0xde,0x5e,0x0b,0xdb,
  0xe0,0x32,0x3a,0x0a,0x49,0x06,0x24,0x5c,0xc2,0xd3,0xac,0x62,0x91,0x95,0xe4,0x79,
  0xe7,0xc8,0x37,0x6d,0x8d,0xd5,0x4e,0xa9,0x6c,0x56,0xf4,0xea,0x65,0x7a,0xae,0x08,
  0xba,0x78,0x25,0x2e,0x1c,0xa6,0xb4,0xc6,0xe8,0xdd,0x74,0x1f,0x4b,0xbd,0x8b,0x8a,
  0x70,0x3e,0xb5,0x66,0x48,0x03,0xf6,0x0e,0x61,0x35,0x57,0xb9,0x86,0xc1,0x1d,0x9e,
  0xe1,0xf8,0x98,0x11,0x69,0xd9,0x8e,0x94,0x9b,0x1e,0x87,0xe9,0xce,0x55,0x28,0xdf,
  0x8c,0xa1,0x89,0x0d,0xbf,0xe6,0x42,0x68,0x41,0x99,0x2d,0x0f,0xb0,0x54,0xbb,0x16]

/-- The inverse S-box table `AES.RSBOX` of `src/aes/mod.ts`. -/
def RSBOX : List Nat := [
  0x52,0x09,0x6a,0xd5,0x30,0x36,0xa5,0x38,0xbf,0x40,0xa3,0x9e,0x81,0xf3,0xd7,0xfb,
  0x7c,0xe3,0x39,0x82,0x9b,0x2f,0xff,0x87,0x34,0x8e,0x43,0x44,0xc4,0xde,0xe9,0xcb,
  0x54,0x7b,0x94,0x32,0xa6,0xc2,0x23,0x3d,0xee,0x4c,0x95,0x0b,0x42,0xfa,0xc3,0x4e,
  0x08,0x2e,0xa1,0x66,0x28,0xd9,0x24,0xb2,0x76,0x5b,0xa2,0x49,0x6d,0x8b,0xd1,0x25,
  0x72,0xf8,0xf6,0x64,0x86,0x68,0x98,0x16,0xd4,0xa4,0x5c,0xcc,0x5d,0x65,0xb6,0x92,
  0x6c,0x70,0x48,0x50,0xfd,0xed,0xb9,0xda,0x5e,0x15,0x46,0x57,0xa7,0x8d,0x9d,0x84,
  0x90,0xd8,0xab,0x00,0x8c,0xbc,0xd3,0x0a,0xf7,0xe4,0x58,0x05,0xb8,0xb3,0x45,0x06,
  0xd0,0x2c,0x1e,0x8f,0xca,0x3f,0x0f,0x02,0xc1,0xaf,0xbd,0x03,0x01,0x13,0x8a,0x6b,
  0x3a,0x91,0x11,0x41,0x4f,0x67,0xdc,0xea,0x97,0xf2,0xcf,0xce,0xf0,0xb4,0xe6,0x73,
  0x96,0xac,0x74,0x22,0xe7,0xad,0x35,0x85,0xe2,0xf9,0x37,0xe8,0x1c,0x75,0xdf,0x6e,
  0x47,0xf1,0x1a,0x71,0x1d,0x29,0xc5,0x89,0x6f,0xb7,0x62,0x0e,0xaa,0x18,0xbe,0x1b,
  0xfc,0x56,0x3e,0x4b,0xc6,0xd2,0x79,0x20,0x9a,0xdb,0xc0,0xfe,0x78,0xcd,0x5a,0xf4,
  0x1f,0xdd,0xa8,0x33,0x88,0x07,0xc7,0x31,0xb1,0x12,0x10,0x59,0x27,0x80,0xec,0x5f,
  0x60,0x51,0x7f,0xa9,0x19,0xb5,0x4a,0x0d,0x2d,0xe5,0x7a,0x9f,0x93,0xc9,0x9c,0xef,
  0xa0,0xe0,0x3b,0x4d,0xae,0x2a,0xf5,0xb0,0xc8,0xeb,0xbb,0x3c,0x83,0x53,0x99,0x61,
  0x17,0x2b,0x04,0x7e,0xba,0x77,0xd6,0x26,0xe1,0x69,0x14,0x63,0x55,0x21,0x0c,0x7d]

/-- The round-constant table `AES.RCON` of `src/aes/mod.ts`. -/
def RCON : List Nat := [0x8d,0x01,0x02,0x04,0x08,0x10,0x20,0x40,0x80,0x1b,0x36]

/-- Byte substitution `AES.subBytes`: byte-for-byte S-box lookup. -/
def subBytes (s : List Nat) : List Nat := s.map (fun x => SBOX.getD x 0)

/-- Inverse byte substitution `AES.invSubBytes`. -/
def invSubBytes (s : List Nat) : List Nat := s.map (fun x => RSBOX.getD x 0)

/-- Row shift `AES.shiftRows` of `src/aes/mod.ts`, written as the
permutation that the sequence of in-place swaps realises on a 16-byte
state. -/
def shiftRows (s : List Nat) : List Nat :=
  [s.getD 0 0, s.getD 5 0, s.getD 10 0, s.getD 15 0,
   s.getD 4 0, s.getD 9 0, s.getD 14 0, s.getD 3 0,
   s.getD 8 0, s.getD 13 0, s.getD 2 0, s.getD 7 0,
   s.getD 12 0, s.getD 1 0, s.getD 6 0, s.getD 11 0]

/-- Inverse row shift `AES.invShiftRows` of `src/aes/mod.ts`. -/
def invShiftRows (s : List Nat) : List Nat :=
  [s.getD 0 0, s.getD 13 0, s.getD 10 0, s.getD 7 0,
   s.getD 4 0, s.getD 1 0, s.getD 14 0, s.getD 11 0,
   s.getD 8 0, s.getD 5 0, s.getD 2 0, s.getD 15 0,
   s.getD 12 0, s.getD 9 0, s.getD 6 0, s.getD 3 0]

/-- List form of a packed column. -/
def colToList (t : Col) : List Nat := [t.1, t.2.1, t.2.2.1, t.2.2.2]

/-- Column mix `AES.mixColumns` of `src/aes/mod.ts` on the 16-byte state. -/
def mixColumns (s : List Nat) : List Nat :=
  colToList (mixCol (s.getD 0 0) (s.getD 1 0) (s.getD 2 0) (s.getD 3 0)) ++
  colToList (mixCol (s.getD 4 0) (s.getD 5 0) (s.getD 6 0) (s.getD 7 0)) ++
  colToList (mixCol (s.getD 8 0) (s.getD 9 0) (s.getD 10 0) (s.getD 11 0)) ++
  colToList (mixCol (s.getD 12 0) (s.getD 13 0) (s.getD 14 0) (s.getD 15 0))

/-- Inverse column mix `AES.invMixColumns` of `src/aes/mod.ts`. -/
def invMixColumns (s : List Nat) : List Nat :=
  colToList (invMixCol (s.getD 0 0) (s.getD 1 0) (s.getD 2 0) (s.getD 3 0)) ++
  colToList (invMixCol (s.getD 4 0) (s.getD 5 0) (s.getD 6 0) (s.getD 7 0)) ++
  colToList (invMixCol (s.getD 8 0) (s.getD 9 0) (s.getD 10 0) (s.getD 11 0)) ++
  colToList (invMixCol (s.getD 12 0) (s.getD 13 0) (s.getD 14 0) (s.getD 15 0))

/-- Round-key addition `AES.addRoundKey`: xor the state with 16 bytes of
the expanded key starting at `round * 16`. -/
def addRoundKey (ks : List Nat) (round : Nat) (s : List Nat) : List Nat :=
  (List.range 16).map fun i => s.getD i 0 ^^^ ks.getD (round * 16 + i) 0

/-- Every list of sixteen bytes is a sixteen-element literal. -/
theorem exists16 (s : List Nat) (h : s.length = 16) :
    ∃ a0 a1 a2 a3 a4 a5 a6 a7 a8 a9 a10 a11 a12 a13 a14 a15 : Nat, s = [a0, a1, a2, a3, a4, a5, a6, a7, a8, a9, a10, a11, a12, a13, a14, a15] := by
  rcases s with _ | ⟨a0, s⟩; · simp at h
  rcases s with _ | ⟨a1, s⟩; · simp at h
  rcases s with _ | ⟨a2, s⟩; · simp at h
  rcases s with _ | ⟨a3, s⟩; · simp at h
  rcases s with _ | ⟨a4, s⟩; · simp at h
  rcases s with _ | ⟨a5, s⟩; · simp at h
  rcases s with _ | ⟨a6, s⟩; · simp at h
  rcases s with _ | ⟨a7, s⟩; · simp at h
  rcases s with _ | ⟨a8, s⟩; · simp at h
  rcases s with _ | ⟨a9, s⟩; · simp at h
  rcases s with _ | ⟨a10, s⟩; · simp at h
  rcases s with _ | ⟨a11, s⟩; · simp at h
  rcases s with _ | ⟨a12, s⟩; · simp at h
  rcases s with _ | ⟨a13, s⟩; · simp at h
  rcases s with _ | ⟨a14, s⟩; · simp at h
  rcases s with _ | ⟨a15, s⟩; · simp at h
  have hnil : s = [] := by
    simp only [List.length_cons] at h
    exact List.length_eq_zero.mp (by omega)
  subst hnil
  exact ⟨a0, a1, a2, a3, a4, a5, a6, a7, a8, a9, a10, a11, a12, a13, a14, a15, rfl⟩

/-- Unfolding of `addRoundKey` on an explicit sixteen-byte state. -/
theorem addRoundKey_explicit (ks : List Nat) (r a0 a1 a2 a3 a4 a5 a6 a7 a8 a9 a10 a11 a12 a13 a14 a15 : Nat) :
    addRoundKey ks r [a0, a1, a2, a3, a4, a5, a6, a7, a8, a9, a10, a11, a12, a13, a14, a15] =
    [a0 ^^^ ks.getD (r * 16 + 0) 0,
     a1 ^^^ ks.getD (r * 16 + 1) 0,
     a2 ^^^ ks.getD (r * 16 + 2) 0,
     a3 ^^^ ks.getD (r * 16 + 3) 0,
     a4 ^^^ ks.getD (r * 16 + 4) 0,
     a5 ^^^ ks.getD (r * 16 + 5) 0,
     a6 ^^^ ks.getD (r * 16 + 6) 0,
     a7 ^^^ ks.getD (r * 16 + 7) 0,
     a8 ^^^ ks.getD (r * 16 + 8) 0,
     a9 ^^^ ks.getD (r * 16 + 9) 0,
     a10 ^^^ ks.getD (r * 16 + 10) 0,
     a11 ^^^ ks.getD (r * 16 + 11) 0,
     a12 ^^^ ks.getD (r * 16 + 12) 0,
     a13 ^^^ ks.getD (r * 16 + 13) 0,
     a14 ^^^ ks.getD (r * 16 + 14) 0,
     a15 ^^^ ks.getD (r * 16 + 15) 0] := rfl

/-- The round-key addition is an involution on sixteen-byte states. -/
theorem addRoundKey_addRoundKey (ks : List Nat) (r : Nat) (s : List Nat) (h : s.length = 16) :
    addRoundKey ks r (addRoundKey ks r s) = s := by
  obtain ⟨a0, a1, a2, a3, a4, a5, a6, a7, a8, a9, a10, a11, a12, a13, a14, a15, rfl⟩ := exists16 s h
  show [a0 ^^^ ks.getD (r * 16 + 0) 0 ^^^ ks.getD (r * 16 + 0) 0,
     a1 ^^^ ks.getD (r * 16 + 1) 0 ^^^ ks.getD (r * 16 + 1) 0,
     a2 ^^^ ks.getD (r * 16 + 2) 0 ^^^ ks.getD (r * 16 + 2) 0,
     a3 ^^^ ks.getD (r * 16 + 3) 0 ^^^ ks.getD (r * 16 + 3) 0,
     a4 ^^^ ks.getD (r * 16 + 4) 0 ^^^ ks.getD (r * 16 + 4) 0,
     a5 ^^^ ks.getD (r * 16 + 5) 0 ^^^ ks.getD (r * 16 + 5) 0,
     a6 ^^^ ks.getD (r * 16 + 6) 0 ^^^ ks.getD (r * 16 + 6) 0,
     a7 ^^^ ks.getD (r * 16 + 7) 0 ^^^ ks.getD (r * 16 + 7) 0,
     a8 ^^^ ks.getD (r * 16 + 8) 0 ^^^ ks.getD (r * 16 + 8) 0,
     a9 ^^^ ks.getD (r * 16 + 9) 0 ^^^ ks.getD (r * 16 + 9) 0,
     a10 ^^^ ks.getD (r * 16 + 10) 0 ^^^ ks.getD (r * 16 + 10) 0,
     a11 ^^^ ks.getD (r * 16 + 11) 0 ^^^ ks.getD (r * 16 + 11) 0,
     a12 ^^^ ks.getD (r * 16 + 12) 0 ^^^ ks.getD (r * 16 + 12) 0,
     a13 ^^^ ks.getD (r * 16 + 13) 0 ^^^ ks.getD (r * 16 + 13) 0,
     a14 ^^^ ks.getD (r * 16 + 14) 0 ^^^ ks.getD (r * 16 + 14) 0,
     a15 ^^^ ks.getD (r * 16 + 15) 0 ^^^ ks.getD (r * 16 + 15) 0] = _
  simp only [Nat.xor_cancel_right]

/-- The inverse row shift undoes the row shift on sixteen-byte states. -/
theorem invShiftRows_shiftRows (s : List Nat) (h : s.length = 16) :
    invShiftRows (shiftRows s) = s := by
  obtain ⟨a0, a1, a2, a3, a4, a5, a6, a7, a8, a9, a10, a11, a12, a13, a14, a15, rfl⟩ := exists16 s h
  rfl

/-- The row shift always yields a sixteen-byte state. -/
theorem shiftRows_length (s : List Nat) : (shiftRows s).length = 16 := rfl

/-- The inverse row shift always yields a sixteen-byte state. -/
theorem invShiftRows_length (s : List Nat) : (invShiftRows s).length = 16 := rfl

/-- A default-zero read from a list of bytes is a byte. -/
theorem getD_lt (s : List Nat) (hb : ∀ x ∈ s, x < 256) (i : Nat) : s.getD i 0 < 256 := by
  by_cases hi : i < s.length
  · rw [List.getD_eq_getElem?_getD, List.getElem?_eq_getElem hi]
    exact hb _ (List.getElem_mem hi)
  · rw [List.getD_eq_default _ _ (Nat.le_of_not_lt hi)]
    omega

/-- The row shift maps bytes to bytes. -/
theorem shiftRows_lt (s : List Nat) (hb : ∀ x ∈ s, x < 256) :
    ∀ x ∈ shiftRows s, x < 256 := by
  intro x hx
  simp only [shiftRows, List.mem_cons, List.not_mem_nil, or_false] at hx
  rcases hx with rfl|rfl|rfl|rfl|rfl|rfl|rfl|rfl|rfl|rfl|rfl|rfl|rfl|rfl|rfl|rfl <;> exact getD_lt s hb _

/-- The inverse row shift maps bytes to bytes. -/
theorem invShiftRows_lt (s : List Nat) (hb : ∀ x ∈ s, x < 256) :
    ∀ x ∈ invShiftRows s, x < 256 := by
  intro x hx
  simp only [invShiftRows, List.mem_cons, List.not_mem_nil, or_false] at hx
  rcases hx with rfl|rfl|rfl|rfl|rfl|rfl|rfl|rfl|rfl|rfl|rfl|rfl|rfl|rfl|rfl|rfl <;> exact getD_lt s hb _

set_option maxRecDepth 32768 in
/-- The inverse S-box undoes the S-box on every byte. -/
theorem rsbox_sbox : ∀ x < 256, RSBOX.getD (SBOX.getD x 0) 0 = x := by decide

set_option maxRecDepth 32768 in
/-- The S-box undoes the inverse S-box on every byte. -/
theorem sbox_rsbox : ∀ x < 256, SBOX.getD (RSBOX.getD x 0) 0 = x := by decide

set_option maxRecDepth 8192 in
/-- Bounded S-box lookups return bytes. -/
theorem sbox_lt_of_lt : ∀ x < 256, SBOX.getD x 0 < 256 := by decide

set_option maxRecDepth 8192 in
/-- Bounded inverse S-box lookups return bytes. -/
theorem rsbox_lt_of_lt : ∀ x < 256, RSBOX.getD x 0 < 256 := by decide

set_option maxRecDepth 8192 in
/-- S-box lookups return bytes for any index. -/
theorem sbox_lt (x : Nat) : SBOX.getD x 0 < 256 := by
  by_cases hx : x < 256
  · exact sbox_lt_of_lt x hx
  · rw [List.getD_eq_default]
    · omega
    · have hlen : SBOX.length = 256 := rfl
      omega

set_option maxRecDepth 8192 in
/-- Inverse S-box lookups return bytes for any index. -/
theorem rsbox_lt (x : Nat) : RSBOX.getD x 0 < 256 := by
  by_cases hx : x < 256
  · exact rsbox_lt_of_lt x hx
  · rw [List.getD_eq_default]
    · omega
    · have hlen : RSBOX.length = 256 := rfl
      omega

/-- The inverse byte substitution undoes the byte substitution. -/
theorem invSubBytes_subBytes (s : List Nat) (hb : ∀ x ∈ s, x < 256) :
    invSubBytes (subBytes s) = s := by
  induction s with
  | nil => rfl
  | cons a t ih =>
    simp only [subBytes, invSubBytes, List.map_cons] at ih ⊢
    rw [rsbox_sbox a (hb a (List.mem_cons_self a t)),
      ih (fun x hx => hb x (List.mem_cons_of_mem a hx))]

/-- The byte substitution preserves the state length. -/
theorem subBytes_length (s : List Nat) : (subBytes s).length = s.length := by
  simp [subBytes]

/-- The inverse byte substitution preserves the state length. -/
theorem invSubBytes_length (s : List Nat) : (invSubBytes s).length = s.length := by
  simp [invSubBytes]

/-- The byte substitution maps bytes to bytes. -/
theorem subBytes_lt (s : List Nat) : ∀ x ∈ subBytes s, x < 256 := by
  intro x hx
  simp only [subBytes, List.mem_map] at hx
  obtain ⟨y, _, rfl⟩ := hx
  exact sbox_lt y

/-- The inverse byte substitution maps bytes to bytes. -/
theorem invSubBytes_lt (s : List Nat) : ∀ x ∈ invSubBytes s, x < 256 := by
  intro x hx
  simp only [invSubBytes, List.mem_map] at hx
  obtain ⟨y, _, rfl⟩ := hx
  exact rsbox_lt y

/-- Packed-column reading of `invMixColumns` after `mixColumns`style
concatenations of four columns. -/
theorem invMixColumns_cols (t1 t2 t3 t4 : Col) :
    invMixColumns (colToList t1 ++ colToList t2 ++ colToList t3 ++ colToList t4)
      = colToList (appInv t1) ++ colToList (appInv t2) ++ colToList (appInv t3)
        ++ colToList (appInv t4) := by
  obtain ⟨a1, b1, c1, d1⟩ := t1
  obtain ⟨a2, b2, c2, d2⟩ := t2
  obtain ⟨a3, b3, c3, d3⟩ := t3
  obtain ⟨a4, b4, c4, d4⟩ := t4
  rfl

/-- Packed-column reading of `mixColumns` after `invMixColumns`-style
concatenations of four columns. -/
theorem mixColumns_cols (t1 t2 t3 t4 : Col) :
    mixColumns (colToList t1 ++ colToList t2 ++ colToList t3 ++ colToList t4)
      = colToList (appMix t1) ++ colToList (appMix t2) ++ colToList (appMix t3)
        ++ colToList (appMix t4) := by
  obtain ⟨a1, b1, c1, d1⟩ := t1
  obtain ⟨a2, b2, c2, d2⟩ := t2
  obtain ⟨a3, b3, c3, d3⟩ := t3
  obtain ⟨a4, b4, c4, d4⟩ := t4
  rfl

/-- The inverse column mix undoes the column mix on sixteen-byte states. -/
theorem invMixColumns_mixColumns (s : List Nat) (h : s.length = 16)
    (hb : ∀ x ∈ s, x < 256) :
    invMixColumns (mixColumns s) = s := by
  obtain ⟨a0, a1, a2, a3, a4, a5, a6, a7, a8, a9, a10, a11, a12, a13, a14, a15, rfl⟩ := exists16 s h
  simp only [List.mem_cons, List.not_mem_nil, or_false] at hb
  have hmix : mixColumns [a0, a1, a2, a3, a4, a5, a6, a7, a8, a9, a10, a11, a12, a13, a14, a15]
      = colToList (mixCol a0 a1 a2 a3) ++ colToList (mixCol a4 a5 a6 a7)
        ++ colToList (mixCol a8 a9 a10 a11) ++ colToList (mixCol a12 a13 a14 a15) := rfl
  rw [hmix, invMixColumns_cols]
  show colToList (appInv (mixCol a0 a1 a2 a3)) ++ _ ++ _ ++ _ = _
  rw [invMixCol_mixCol a0 a1 a2 a3 (hb a0 (by simp)) (hb a1 (by simp)) (hb a2 (by simp)) (hb a3 (by simp)),
    invMixCol_mixCol a4 a5 a6 a7 (hb a4 (by simp)) (hb a5 (by simp)) (hb a6 (by simp)) (hb a7 (by simp)),
    invMixCol_mixCol a8 a9 a10 a11 (hb a8 (by simp)) (hb a9 (by simp)) (hb a10 (by simp)) (hb a11 (by simp)),
    invMixCol_mixCol a12 a13 a14 a15 (hb a12 (by simp)) (hb a13 (by simp)) (hb a14 (by simp)) (hb a15 (by simp))]
  rfl

/-- The column mix undoes the inverse column mix on sixteen-byte states. -/
theorem mixColumns_invMixColumns (s : List Nat) (h : s.length = 16)
    (hb : ∀ x ∈ s, x < 256) :
    mixColumns (invMixColumns s) = s := by
  obtain ⟨a0, a1, a2, a3, a4, a5, a6, a7, a8, a9, a10, a11, a12, a13, a14, a15, rfl⟩ := exists16 s h
  simp only [List.mem_cons, List.not_mem_nil, or_false] at hb
  have hmix : invMixColumns [a0, a1, a2, a3, a4, a5, a6, a7, a8, a9, a10, a11, a12, a13, a14, a15]
      = colToList (invMixCol a0 a1 a2 a3) ++ colToList (invMixCol a4 a5 a6 a7)
        ++ colToList (invMixCol a8 a9 a10 a11) ++ colToList (invMixCol a12 a13 a14 a15) := rfl
  rw [hmix, mixColumns_cols]
  show colToList (appMix (invMixCol a0 a1 a2 a3)) ++ _ ++ _ ++ _ = _
  rw [mixCol_invMixCol a0 a1 a2 a3 (hb a0 (by simp)) (hb a1 (by simp)) (hb a2 (by simp)) (hb a3 (by simp)),
    mixCol_invMixCol a4 a5 a6 a7 (hb a4 (by simp)) (hb a5 (by simp)) (hb a6 (by simp)) (hb a7 (by simp)),
    mixCol_invMixCol a8 a9 a10 a11 (hb a8 (by simp)) (hb a9 (by simp)) (hb a10 (by simp)) (hb a11 (by simp)),
    mixCol_invMixCol a12 a13 a14 a15 (hb a12 (by simp)) (hb a13 (by simp)) (hb a14 (by simp)) (hb a15 (by simp))]
  rfl

/-- The column mix always yields a sixteen-byte state. -/
theorem mixColumns_length (s : List Nat) : (mixColumns s).length = 16 := rfl

/-- The inverse column mix always yields a sixteen-byte state. -/
theorem invMixColumns_length (s : List Nat) : (invMixColumns s).length = 16 := rfl

/-- Components of a forward-mixed column are bytes. -/
theorem mixCol_mem_lt (a b c d : Nat) : ∀ x ∈ colToList (mixCol a b c d), x < 256 := by
  intro x hx
  simp only [mixCol, colToList, List.mem_cons, List.not_mem_nil, or_false] at hx
  rcases hx with rfl | rfl | rfl | rfl <;> exact Nat.mod_lt _ (by omega)

/-- Components of an inverse-mixed column are bytes. -/
theorem invMixCol_mem_lt (a b c d : Nat) : ∀ x ∈ colToList (invMixCol a b c d), x < 256 := by
  intro x hx
  simp only [invMixCol, colToList, List.mem_cons, List.not_mem_nil, or_false] at hx
  rcases hx with rfl | rfl | rfl | rfl <;> exact Nat.mod_lt _ (by omega)

/-- The column mix maps any state to bytes. -/
theorem mixColumns_lt (s : List Nat) : ∀ x ∈ mixColumns s, x < 256 := by
  intro x hx
  simp only [mixColumns, List.mem_append] at hx
  rcases hx with ((hx | hx) | hx) | hx <;> exact mixCol_mem_lt _ _ _ _ x hx

/-- The inverse column mix maps any state to bytes. -/
theorem invMixColumns_lt (s : List Nat) : ∀ x ∈ invMixColumns s, x < 256 := by
  intro x hx
  simp only [invMixColumns, List.mem_append] at hx
  rcases hx with ((hx | hx) | hx) | hx <;> exact invMixCol_mem_lt _ _ _ _ x hx

/-- The round-key addition always yields a sixteen-byte state. -/
theorem addRoundKey_length (ks : List Nat) (r : Nat) (s : List Nat) :
    (addRoundKey ks r s).length = 16 := by
  simp [addRoundKey]

/-- The round-key addition maps bytes to bytes when the schedule holds bytes. -/
theorem addRoundKey_lt (ks : List Nat) (r : Nat) (s : List Nat)
    (hs : ∀ x ∈ s, x < 256) (hk : ∀ x ∈ ks, x < 256) :
    ∀ x ∈ addRoundKey ks r s, x < 256 := by
  intro x hx
  simp only [addRoundKey, List.mem_map] at hx
  obtain ⟨i, _, rfl⟩ := hx
  have h1 : s.getD i 0 < 256 := getD_lt s hs i
  have h2 : ks.getD (r * 16 + i) 0 < 256 := getD_lt ks hk _
  have h256 : (256 : Nat) = 2 ^ 8 := by norm_num
  rw [h256] at h1 h2 ⊢
  exact Nat.xor_lt_two_pow h1 h2

/-- A sixteen-byte state with byte-bounded entries. -/
def Good16 (s : List Nat) : Prop := s.length = 16 ∧ ∀ x ∈ s, x < 256

/-- One main encryption round of `AES.encryptBlock`: substitute bytes,
shift rows, mix columns, add the round key. -/
def Eround (ks : List Nat) (i : Nat) (s : List Nat) : List Nat :=
  addRoundKey ks i (mixColumns (shiftRows (subBytes s)))

/-- One main decryption round of `AES.decryptBlock`: inverse shift rows,
inverse substitute bytes, add the round key, inverse mix columns. -/
def Dround (ks : List Nat) (i : Nat) (s : List Nat) : List Nat :=
  invMixColumns (addRoundKey ks i (invSubBytes (invShiftRows s)))

/-- The main loop of `AES.encryptBlock`: `r` rounds starting at index `i`. -/
def encRounds (ks : List Nat) : Nat → Nat → List Nat → List Nat
  | 0, _, s => s
  | r + 1, i, s => encRounds ks r (i + 1) (Eround ks i s)

/-- The main loop of `AES.decryptBlock`: `r` rounds counting down from `i`. -/
def decRounds (ks : List Nat) : Nat → Nat → List Nat → List Nat
  | 0, _, s => s
  | r + 1, i, s => decRounds ks r (i - 1) (Dround ks i s)

/-- The method `AES.encryptBlock` of `src/aes/mod.ts`.  The loop
`for (i = 1; i < nr; i++)` performs `nr - 1` rounds starting at 1. -/
def encryptBlock (ks : List Nat) (data : List Nat) : List Nat :=
  let nr := ks.length / 16 - 1
  addRoundKey ks nr (shiftRows (subBytes (encRounds ks (nr - 1) 1 (addRoundKey ks 0 data))))

/-- The method `AES.decryptBlock` of `src/aes/mod.ts`.  The loop
`for (i = nr - 1; i > 0; i--)` performs `nr - 1` rounds from `nr - 1` down. -/
def decryptBlock (ks : List Nat) (data : List Nat) : List Nat :=
  let nr := ks.length / 16 - 1
  addRoundKey ks 0
    (invSubBytes (invShiftRows (decRounds ks (nr - 1) (nr - 1) (addRoundKey ks nr data))))

/-- An encryption round yields a bounded sixteen-byte state whenever the
key schedule is made of bytes. -/
theorem Eround_good (ks : List Nat) (hk : ∀ x ∈ ks, x < 256) (i : Nat) (s : List Nat) :
    Good16 (Eround ks i s) :=
  ⟨addRoundKey_length ks i _, addRoundKey_lt ks i _ (mixColumns_lt _) hk⟩

/-- The encryption loop preserves bounded sixteen-byte states. -/
theorem encRounds_good (ks : List Nat) (hk : ∀ x ∈ ks, x < 256) :
    ∀ (r i : Nat) (s : List Nat), Good16 s → Good16 (encRounds ks r i s) := by
  intro r
  induction r with
  | zero => intro i s hs; exact hs
  | succ r ih => intro i s _; exact ih (i + 1) _ (Eround_good ks hk i s)

/-- Peeling the last round off the encryption loop. -/
theorem encRounds_succ (ks : List Nat) :
    ∀ (r i : Nat) (s : List Nat), encRounds ks (r + 1) i s = Eround ks (i + r) (encRounds ks r i s) := by
  intro r
  induction r with
  | zero => intro i s; rfl
  | succ r ih =>
    intro i s
    show encRounds ks (r + 1) (i + 1) (Eround ks i s) = _
    rw [ih (i + 1) (Eround ks i s)]
    show Eround ks (i + 1 + r) _ = Eround ks (i + (r + 1)) _
    congr 1
    omega

/-- A decryption round cancels the matching encryption round across the
round boundary. -/
theorem Dround_Eround (ks : List Nat) (hk : ∀ x ∈ ks, x < 256) (j : Nat)
    (u : List Nat) :
    Dround ks j (shiftRows (subBytes (Eround ks j u))) = shiftRows (subBytes u) := by
  unfold Dround Eround
  rw [invShiftRows_shiftRows _ (by rw [subBytes_length, addRoundKey_length])]
  rw [invSubBytes_subBytes _ (addRoundKey_lt ks j _ (mixColumns_lt _) hk)]
  rw [addRoundKey_addRoundKey ks j _ (mixColumns_length _)]
  rw [invMixColumns_mixColumns _ (shiftRows_length _) (shiftRows_lt _ (subBytes_lt _))]

/-- The decryption loop undoes the encryption loop. -/
theorem decRounds_encRounds (ks : List Nat) (hk : ∀ x ∈ ks, x < 256) :
    ∀ (r : Nat) (s : List Nat), Good16 s →
      decRounds ks r r (shiftRows (subBytes (encRounds ks r 1 s))) = shiftRows (subBytes s) := by
  intro r
  induction r with
  | zero => intro s _; rfl
  | succ r ih =>
    intro s hs
    rw [encRounds_succ ks r 1 s]
    show decRounds ks r (r + 1 - 1)
        (Dround ks (r + 1) (shiftRows (subBytes (Eround ks (1 + r) (encRounds ks r 1 s))))) = _
    have h1r : 1 + r = r + 1 := by omega
    rw [h1r, Dround_Eround ks hk (r + 1) _]
    simpa using ih s hs

/-- The method `decryptBlock` inverts `encryptBlock` on every bounded
sixteen-byte block, for every byte-valued key schedule. -/
theorem decryptBlock_encryptBlock (ks : List Nat) (data : List Nat)
    (hk : ∀ x ∈ ks, x < 256) (hlen : data.length = 16) (hb : ∀ x ∈ data, x < 256) :
    decryptBlock ks (encryptBlock ks data) = data := by
  simp only [encryptBlock, decryptBlock]
  rw [addRoundKey_addRoundKey ks _ _ (shiftRows_length _)]
  rw [decRounds_encRounds ks hk _ _ ⟨addRoundKey_length ks 0 data,
    addRoundKey_lt ks 0 data hb hk⟩]
  rw [invShiftRows_shiftRows _ (by rw [subBytes_length, addRoundKey_length])]
  rw [invSubBytes_subBytes _ (addRoundKey_lt ks 0 data hb hk)]
  rw [addRoundKey_addRoundKey ks 0 data hlen]

/-- Block encryption always yields sixteen bytes. -/
theorem encryptBlock_length (ks data : List Nat) : (encryptBlock ks data).length = 16 :=
  addRoundKey_length ks _ _

/-- Block decryption always yields sixteen bytes. -/
theorem decryptBlock_length (ks data : List Nat) : (decryptBlock ks data).length = 16 :=
  addRoundKey_length ks _ _

/-- Block encryption yields bytes whenever the key schedule holds bytes. -/
theorem encryptBlock_lt (ks data : List Nat) (hk : ∀ x ∈ ks, x < 256) :
    ∀ x ∈ encryptBlock ks data, x < 256 :=
  addRoundKey_lt ks _ _ (shiftRows_lt _ (subBytes_lt _)) hk

/-- Block decryption yields bytes whenever the key schedule holds bytes. -/
theorem decryptBlock_lt (ks data : List Nat) (hk : ∀ x ∈ ks, x < 256) :
    ∀ x ∈ decryptBlock ks data, x < 256 := by
  refine addRoundKey_lt ks _ _ ?_ hk
  exact invSubBytes_lt _

/-- Componentwise xor of two byte lists, truncating to the shorter. -/
def zipXor (a b : List Nat) : List Nat := List.zipWith (fun x y => x ^^^ y) a b

/-- The static method `AES.rotWord` of `src/aes/mod.ts`, acting on an
extracted four-byte word: cyclic left rotation. -/
def rotWord (w : List Nat) : List Nat := [w.getD 1 0, w.getD 2 0, w.getD 3 0, w.getD 0 0]

/-- The static method `AES.subWord` of `src/aes/mod.ts`: S-box lookup on
each byte of a word. -/
def subWord (w : List Nat) : List Nat := w.map (fun x => SBOX.getD x 0)

/-- The body of the key-expansion loop of `AES.keyExpansion`: produce
word `i` (where `i` is the number of words built so far) from word
`i - 1` and word `i - nk`.  For `i < nk` the word is copied from the
key.  Otherwise the source copies word `i - 1`, conditionally applies
`rotWord`, `subWord` and the round-constant xor on byte 0, and finally
xors with word `i - nk`. -/
def nextWord (key : List Nat) (nk : Nat) (ws : List (List Nat)) : List Nat :=
  let i := ws.length
  if i < nk then (key.drop (4 * i)).take 4
  else
    let prev := ws.getD (i - 1) []
    let tmp :=
      if i % nk = 0 then
        let t := subWord (rotWord prev)
        [t.getD 0 0 ^^^ RCON.getD (i / nk) 0, t.getD 1 0, t.getD 2 0, t.getD 3 0]
      else if 6 < nk ∧ i % nk = 4 then subWord prev
      else prev
    zipXor (ws.getD (i - nk) []) tmp

/-- The first `n` words of the expanded key schedule. -/
def keyExpWords (key : List Nat) (nk : Nat) : Nat → List (List Nat)
  | 0 => []
  | n + 1 =>
    let ws := keyExpWords key nk n
    ws ++ [nextWord key nk ws]

/-- The static method `AES.keyExpansion` of `src/aes/mod.ts`: the byte
array of all `4 * (nr + 1)` expanded words, `nk = key.length / 4`,
`nr = nk + 6`. -/
def keyExpansion (key : List Nat) : List Nat :=
  let nk := key.length / 4
  let nr := nk + 6
  (keyExpWords key nk (4 * (nr + 1))).flatten

/-- The word list has as many words as requested. -/
theorem keyExpWords_length (key : List Nat) (nk : Nat) :
    ∀ n, (keyExpWords key nk n).length = n := by
  intro n
  induction n with
  | zero => rfl
  | succ n ih => simp [keyExpWords, ih]

/-- Words already built are unchanged by building more words. -/
theorem keyExpWords_stable (key : List Nat) (nk : Nat) :
    ∀ (m n j : Nat), n ≤ m → j < n →
      (keyExpWords key nk m).getD j [] = (keyExpWords key nk n).getD j [] := by
  intro m
  induction m with
  | zero => intro n j hn hj; omega
  | succ m ih =>
    intro n j hn hj
    rcases Nat.eq_or_lt_of_le hn with h | h
    · rw [h]
    · have hnm : n ≤ m := by omega
      rw [← ih n j hnm hj]
      show (keyExpWords key nk m ++ [nextWord key nk (keyExpWords key nk m)]).getD j [] = _
      rw [List.getD_append]
      rw [keyExpWords_length]
      omega

/-- The word at index `i` is produced by `nextWord` from the words
before it. -/
theorem keyExpWords_getD_eq (key : List Nat) (nk : Nat) (i N : Nat) (h : i < N) :
    (keyExpWords key nk N).getD i [] = nextWord key nk (keyExpWords key nk i) := by
  have h1 : (keyExpWords key nk (i + 1)).getD i [] = nextWord key nk (keyExpWords key nk i) := by
    show (keyExpWords key nk i ++ [nextWord key nk (keyExpWords key nk i)]).getD i [] = _
    rw [List.getD_append_right _ _ _ _ (by rw [keyExpWords_length])]
    rw [keyExpWords_length]
    simp
  rw [← h1]
  exact keyExpWords_stable key nk N (i + 1) i h (by omega)

/-- Every expanded word has four bytes, provided the key length is a
multiple of four and `nk` is the number of key words. -/
theorem keyExpWords_wlen (key : List Nat) (nk : Nat) (hkey : key.length = 4 * nk)
    (hnk : 0 < nk) :
    ∀ n, ∀ w ∈ keyExpWords key nk n, w.length = 4 := by
  intro n
  induction n with
  | zero => intro w hw; simp [keyExpWords] at hw
  | succ n ih =>
    intro w hw
    simp only [keyExpWords, List.mem_append, List.mem_singleton] at hw
    rcases hw with hw | rfl
    · exact ih w hw
    · unfold nextWord
      by_cases hlt : (keyExpWords key nk n).length < nk
      · rw [if_pos hlt]
        rw [List.length_take, List.length_drop, hkey]
        rw [keyExpWords_length] at hlt ⊢
        omega
      · rw [if_neg hlt]
        have hprevlen : ((keyExpWords key nk n).getD ((keyExpWords key nk n).length - nk) []).length = 4 := by
          apply ih
          rw [List.getD_eq_getElem?_getD, List.getElem?_eq_getElem (by rw [keyExpWords_length] at hlt ⊢; omega)]
          exact List.getElem_mem _
        have hp1len : ((keyExpWords key nk n).getD ((keyExpWords key nk n).length - 1) []).length = 4 := by
          apply ih
          rw [List.getD_eq_getElem?_getD, List.getElem?_eq_getElem (by rw [keyExpWords_length] at hlt ⊢; omega)]
          exact List.getElem_mem _
        simp only [zipXor]
        rw [List.length_zipWith, hprevlen]
        split
        · simp
        · split
          · simp only [subWord, List.length_map]
            rw [hp1len]
            rfl
          · rw [hp1len]
            rfl

set_option maxRecDepth 2048 in
/-- All round constants are bytes. -/
theorem rcon_lt : ∀ x ∈ RCON, x < 256 := by decide

/-- Reading a word list with a default preserves a pointwise bound. -/
theorem getD_word_bound (ws : List (List Nat)) (hb : ∀ w ∈ ws, ∀ x ∈ w, x < 256)
    (i : Nat) : ∀ x ∈ ws.getD i [], x < 256 := by
  by_cases hi : i < ws.length
  · rw [List.getD_eq_getElem?_getD, List.getElem?_eq_getElem hi]
    exact hb _ (List.getElem_mem hi)
  · rw [List.getD_eq_default _ _ (Nat.le_of_not_lt hi)]
    intro x hx
    simp at hx

/-- Componentwise xor of byte lists yields bytes. -/
theorem zipXor_lt (a : List Nat) : ∀ (b : List Nat), (∀ x ∈ a, x < 256) → (∀ x ∈ b, x < 256) →
    ∀ x ∈ zipXor a b, x < 256 := by
  induction a with
  | nil => intro b _ _ x hx; simp [zipXor] at hx
  | cons p ta ih =>
    intro b ha hb x hx
    cases b with
    | nil => simp [zipXor] at hx
    | cons q tb =>
      simp only [zipXor, List.zipWith_cons_cons, List.mem_cons] at hx
      rcases hx with rfl | hx
      · have h1 : p < 256 := ha p (List.mem_cons_self p ta)
        have h2 : q < 256 := hb q (List.mem_cons_self q tb)
        have h256 : (256 : Nat) = 2 ^ 8 := by norm_num
        rw [h256] at h1 h2 ⊢
        exact Nat.xor_lt_two_pow h1 h2
      · exact ih tb (fun y hy => ha y (List.mem_cons_of_mem p hy))
          (fun y hy => hb y (List.mem_cons_of_mem q hy)) x hx

/-- S-box substitution of a word yields bytes. -/
theorem subWord_lt (w : List Nat) : ∀ x ∈ subWord w, x < 256 := by
  intro x hx
  simp only [subWord, List.mem_map] at hx
  obtain ⟨y, _, rfl⟩ := hx
  exact sbox_lt y

/-- Every byte in every expanded word is a byte when the key is made of
bytes. -/
theorem keyExpWords_lt (key : List Nat) (nk : Nat) (hkb : ∀ x ∈ key, x < 256) :
    ∀ n, ∀ w ∈ keyExpWords key nk n, ∀ x ∈ w, x < 256 := by
  intro n
  induction n with
  | zero => intro w hw; simp [keyExpWords] at hw
  | succ n ih =>
    intro w hw
    simp only [keyExpWords, List.mem_append, List.mem_singleton] at hw
    rcases hw with hw | rfl
    · exact ih w hw
    · simp only [nextWord]
      split
      · intro x hx
        exact hkb x (List.mem_of_mem_drop (List.mem_of_mem_take hx))
      · refine zipXor_lt _ _ (getD_word_bound _ ih _) ?_
        split
        · intro x hx
          simp only [List.mem_cons, List.not_mem_nil, or_false] at hx
          rcases hx with rfl | rfl | rfl | rfl
          · have h1 : (subWord (rotWord ((keyExpWords key nk n).getD ((keyExpWords key nk n).length - 1) []))).getD 0 0 < 256 :=
              getD_lt _ (subWord_lt _) 0
            have h2 : RCON.getD ((keyExpWords key nk n).length / nk) 0 < 256 :=
              getD_lt _ rcon_lt _
            have h256 : (256 : Nat) = 2 ^ 8 := by norm_num
            rw [h256] at h1 h2 ⊢
            exact Nat.xor_lt_two_pow h1 h2
          · exact getD_lt _ (subWord_lt _) 1
          · exact getD_lt _ (subWord_lt _) 2
          · exact getD_lt _ (subWord_lt _) 3
        · split
          · exact subWord_lt _
          · exact getD_word_bound _ ih _

/-- Every byte of the expanded key schedule is a byte when the key is. -/
theorem keyExpansion_lt (key : List Nat) (hkb : ∀ x ∈ key, x < 256) :
    ∀ x ∈ keyExpansion key, x < 256 := by
  intro x hx
  simp only [keyExpansion, List.mem_flatten] at hx
  obtain ⟨w, hw, hxw⟩ := hx
  exact keyExpWords_lt key _ hkb _ w hw x hxw

/-- Flattening a list of four-byte words and slicing at word `i` yields
word `i`. -/
theorem flatten_slice (ws : List (List Nat)) (h4 : ∀ w ∈ ws, w.length = 4) :
    ∀ i, i < ws.length → ((ws.flatten).drop (4 * i)).take 4 = ws.getD i [] := by
  induction ws with
  | nil => intro i hi; simp at hi
  | cons w tail ih =>
    intro i hi
    have hw4 : w.length = 4 := h4 w (List.mem_cons_self w tail)
    cases i with
    | zero =>
      show ((w ++ tail.flatten).drop 0).take 4 = w
      rw [List.drop_zero, ← hw4, List.take_left]
    | succ j =>
      show ((w ++ tail.flatten).drop (4 * (j + 1))).take 4 = tail.getD j []
      have harith : 4 * (j + 1) = w.length + 4 * j := by omega
      rw [harith, List.drop_append]
      exact ih (fun v hv => h4 v (List.mem_cons_of_mem w hv)) j (by simpa using hi)

/-- Flattening four-byte words gives four bytes per word. -/
theorem flatten_length4 (ws : List (List Nat)) (h4 : ∀ w ∈ ws, w.length = 4) :
    ws.flatten.length = 4 * ws.length := by
  induction ws with
  | nil => rfl
  | cons w tail ih =>
    show (w ++ tail.flatten).length = _
    rw [List.length_append, h4 w (List.mem_cons_self w tail),
      ih (fun v hv => h4 v (List.mem_cons_of_mem w hv))]
    simp [List.length_cons]
    omega

/-- The expanded schedule of a valid key has `16 * (nr + 1)` bytes. -/
theorem keyExpansion_length (key : List Nat)
    (hlen : key.length = 16 ∨ key.length = 24 ∨ key.length = 32) :
    (keyExpansion key).length = 16 * (key.length / 4 + 6 + 1) := by
  unfold keyExpansion
  rw [flatten_length4 _ (keyExpWords_wlen key _ (by omega) (by omega) _), keyExpWords_length]
  omega

/-- Every four-byte word is a four-element literal. -/
theorem exists4 (w : List Nat) (h : w.length = 4) :
    ∃ u0 u1 u2 u3 : Nat, w = [u0, u1, u2, u3] := by
  rcases w with _ | ⟨u0, w⟩; · simp at h
  rcases w with _ | ⟨u1, w⟩; · simp at h
  rcases w with _ | ⟨u2, w⟩; · simp at h
  rcases w with _ | ⟨u3, w⟩; · simp at h
  have hnil : w = [] := by
    simp only [List.length_cons] at h
    exact List.length_eq_zero.mp (by omega)
  subst hnil
  exact ⟨u0, u1, u2, u3, rfl⟩

/-- The word transform of the Rijndael key-expansion recurrence, as the
specification states it: identity normally; substitute and rotate the
bytes and xor a round-constant word when `i % nk = 0`; substitute only
when `nk > 6` and `i % nk = 4`. -/
def Tspec (nk i : Nat) (w : List Nat) : List Nat :=
  if i % nk = 0 then zipXor (subWord (rotWord w)) [RCON.getD (i / nk) 0, 0, 0, 0]
  else if 6 < nk ∧ i % nk = 4 then subWord w
  else w

/-- Xoring a round constant onto byte 0 of a four-byte word equals the
word-level xor with the round-constant word. -/
theorem rcon_byte0 (t : List Nat) (r : Nat) (h : t.length = 4) :
    [t.getD 0 0 ^^^ r, t.getD 1 0, t.getD 2 0, t.getD 3 0] = zipXor t [r, 0, 0, 0] := by
  obtain ⟨u0, u1, u2, u3, rfl⟩ := exists4 t h
  simp [zipXor]

/-- The conditional transform inside `nextWord` agrees with `Tspec`. -/
theorem nextWord_tmp_eq (nk i : Nat) (prev : List Nat) :
    (if i % nk = 0 then
        let t := subWord (rotWord prev)
        [t.getD 0 0 ^^^ RCON.getD (i / nk) 0, t.getD 1 0, t.getD 2 0, t.getD 3 0]
      else if 6 < nk ∧ i % nk = 4 then subWord prev
      else prev) = Tspec nk i prev := by
  unfold Tspec
  split
  · exact rcon_byte0 (subWord (rotWord prev)) _ rfl
  · rfl

/-- C3: for every key of length 16, 24 or 32 bytes, the expanded key
schedule computed at construction satisfies the Rijndael recurrence:
the first `nk` 4-byte words equal the key, and for every word index `i`
in `[nk, 4 * (nr + 1))`, `w[i] = w[i - nk] XOR T(w[i - 1])`, where `T`
is the identity except that when `i % nk = 0` it substitutes and
rotates the bytes and xors a round constant, and when `nk > 6` and
`i % nk = 4` it substitutes bytes only. -/
theorem keyExpansion_rijndael (key : List Nat)
    (hlen : key.length = 16 ∨ key.length = 24 ∨ key.length = 32) :
    (∀ i < key.length / 4,
      ((keyExpansion key).drop (4 * i)).take 4 = (key.drop (4 * i)).take 4) ∧
    (∀ i, key.length / 4 ≤ i → i < 4 * (key.length / 4 + 6 + 1) →
      ((keyExpansion key).drop (4 * i)).take 4
        = zipXor (((keyExpansion key).drop (4 * (i - key.length / 4))).take 4)
            (Tspec (key.length / 4) i (((keyExpansion key).drop (4 * (i - 1))).take 4))) := by
  have hnk4 : key.length = 4 * (key.length / 4) := by omega
  have hnk0 : 0 < key.length / 4 := by omega
  have hN : (keyExpWords key (key.length / 4) (4 * (key.length / 4 + 6 + 1))).length
      = 4 * (key.length / 4 + 6 + 1) := keyExpWords_length _ _ _
  have h4 : ∀ w ∈ keyExpWords key (key.length / 4) (4 * (key.length / 4 + 6 + 1)), w.length = 4 :=
    keyExpWords_wlen key _ hnk4 hnk0 _
  have hslice : ∀ i, i < 4 * (key.length / 4 + 6 + 1) →
      ((keyExpansion key).drop (4 * i)).take 4
        = (keyExpWords key (key.length / 4) (4 * (key.length / 4 + 6 + 1))).getD i [] := by
    intro i hi
    show ((keyExpWords key (key.length / 4) (4 * (key.length / 4 + 6 + 1))).flatten.drop (4 * i)).take 4 = _
    exact flatten_slice _ h4 i (by omega)
  constructor
  · intro i hi
    rw [hslice i (by omega),
      keyExpWords_getD_eq key _ i _ (by omega)]
    unfold nextWord
    rw [if_pos (by rw [keyExpWords_length]; omega)]
    rw [keyExpWords_length]
  · intro i hge hi
    rw [hslice i hi, keyExpWords_getD_eq key _ i _ hi]
    rw [hslice (i - key.length / 4) (by omega), hslice (i - 1) (by omega)]
    rw [keyExpWords_stable key (key.length / 4) (4 * (key.length / 4 + 6 + 1)) i
        (i - key.length / 4) (by omega) (by omega),
      keyExpWords_stable key (key.length / 4) (4 * (key.length / 4 + 6 + 1)) i
        (i - 1) (by omega) (by omega)]
    simp only [nextWord]
    rw [if_neg (by rw [keyExpWords_length]; omega)]
    rw [keyExpWords_length]
    rw [nextWord_tmp_eq]

/-- The mode enumeration of `src/aes/mod.ts`: only ECB and CBC exist
there (`enum Mode { ECB = 1, CBC }`). -/
inductive Mode where
  | ECB : Mode
  | CBC : Mode
deriving DecidableEq, Repr

/-- Modelled from the spec: PKCS7 `pad` of `utils/padding.ts` (section
4.2), a file that is not under `src/`: with `n = 16 - len mod 16`
(replaced by the block size if zero), append `n` bytes of value `n`. -/
def pad (data : List Nat) : List Nat :=
  let n := 16 - data.length % 16
  let n2 := if n = 0 then 16 else n
  data ++ List.replicate n2 n2

/-- Modelled from the spec: PKCS7 `unpad` of `utils/padding.ts` (section
4.2), a file that is not under `src/`: read the last byte `v`; fail if
`v = 0`, `v > 16`, `v > len(data)` or one of the last `v` bytes differs
from `v`; otherwise drop the last `v` bytes. -/
def unpad (data : List Nat) : Except String (List Nat) :=
  match data.getLast? with
  | none => .error "invalid padding"
  | some v =>
    if v = 0 ∨ 16 < v ∨ data.length < v
        ∨ ¬ (data.drop (data.length - v)).all (fun x => x == v) then
      .error "invalid padding"
    else
      .ok (data.take (data.length - v))

/-- An `AES` class instance after construction: the expanded key stored
in `this.key`, the mode, and the optional IV.  The padding field is
always `Padding.PKCS7` and is left implicit. -/
structure AESInst where
  key : List Nat
  mode : Mode
  iv : Option (List Nat)
deriving DecidableEq, Repr

/-- The constructor of class `AES` in `src/aes/mod.ts`: the mode
defaults to ECB; for CBC the IV must be present and 16 bytes long; the
IV validation runs before the key-length validation; the expanded key
schedule is computed once here. -/
def newAES (key : List Nat) (mode : Option Mode) (iv : Option (List Nat)) :
    Except String AESInst :=
  let m := mode.getD Mode.ECB
  let afterIV : Except String Unit :=
    if m = Mode.CBC then
      match iv with
      | none => .error "IV is not set."
      | some v => if v.length ≠ 16 then .error "IV should be 16 bytes long." else .ok ()
    else .ok ()
  match afterIV with
  | .error e => .error e
  | .ok _ =>
    if key.length = 16 ∨ key.length = 24 ∨ key.length = 32 then
      .ok { key := keyExpansion key, mode := m, iv := iv }
    else .error "Key should be 16, 24 or 32 bytes long"

/-- Fuelled splitting of a byte list into 16-byte chunks. -/
def toBlocksF : Nat → List Nat → List (List Nat)
  | 0, _ => []
  | fuel + 1, l => if l = [] then [] else l.take 16 :: toBlocksF fuel (l.drop 16)

/-- Splitting a byte list into successive 16-byte chunks, as the loops
`for (let i = 0; i < data.length; i += 16)` of `encrypt`/`decrypt` read
their input. -/
def toBlocks (l : List Nat) : List (List Nat) := toBlocksF l.length l

/-- The fuel does not matter once it covers the list length. -/
theorem toBlocksF_irrel : ∀ (f1 : Nat), ∀ (f2 : Nat), ∀ (l : List Nat),
    l.length ≤ f1 → l.length ≤ f2 → toBlocksF f1 l = toBlocksF f2 l := by
  intro f1
  induction f1 with
  | zero =>
    intro f2 l h1 _
    have : l = [] := by
      cases l with
      | nil => rfl
      | cons a t => simp at h1
    subst this
    cases f2 <;> simp [toBlocksF]
  | succ f ih =>
    intro f2 l h1 h2
    by_cases hl : l = []
    · subst hl
      cases f2 <;> simp [toBlocksF]
    · have hlen : 1 ≤ l.length := by
        cases l with
        | nil => exact absurd rfl hl
        | cons a t => simp
      cases f2 with
      | zero => omega
      | succ g =>
        simp only [toBlocksF, if_neg hl]
        rw [ih g (l.drop 16) (by rw [List.length_drop]; omega) (by rw [List.length_drop]; omega)]

/-- Unfolding `toBlocks` on a nonempty list. -/
theorem toBlocks_ne_nil (l : List Nat) (h : l ≠ []) :
    toBlocks l = l.take 16 :: toBlocks (l.drop 16) := by
  have hlen : 1 ≤ l.length := by
    cases l with
    | nil => exact absurd rfl h
    | cons a t => simp
  unfold toBlocks
  cases hl : l.length with
  | zero => omega
  | succ m =>
    simp only [toBlocksF, if_neg h]
    rw [toBlocksF_irrel m (l.drop 16).length (l.drop 16) (by rw [List.length_drop]; omega)
      (Nat.le_refl _)]

/-- Concatenating the chunks recovers the list. -/
theorem flatten_toBlocks (l : List Nat) : (toBlocks l).flatten = l := by
  have main : ∀ (fuel : Nat) (m : List Nat), m.length ≤ fuel → (toBlocksF fuel m).flatten = m := by
    intro fuel
    induction fuel with
    | zero =>
      intro m h
      have : m = [] := by
        cases m with
        | nil => rfl
        | cons a t => simp at h
      subst this
      rfl
    | succ f ih =>
      intro m h
      by_cases hm : m = []
      · subst hm; rfl
      · have hlen : 1 ≤ m.length := by
          cases m with
          | nil => exact absurd rfl hm
          | cons a t => simp
        simp only [toBlocksF, if_neg hm, List.flatten_cons]
        rw [ih (m.drop 16) (by rw [List.length_drop]; omega)]
        exact List.take_append_drop 16 m
  exact main l.length l (Nat.le_refl _)

/-- Chunks of a block-aligned list are 16 bytes each. -/
theorem toBlocks_blocklen (l : List Nat) (h : l.length % 16 = 0) :
    ∀ b ∈ toBlocks l, b.length = 16 := by
  have main : ∀ (fuel : Nat) (m : List Nat), m.length ≤ fuel → m.length % 16 = 0 →
      ∀ b ∈ toBlocksF fuel m, b.length = 16 := by
    intro fuel
    induction fuel with
    | zero =>
      intro m h1 _ b hb
      have : m = [] := by
        cases m with
        | nil => rfl
        | cons a t => simp at h1
      subst this
      simp [toBlocksF] at hb
    | succ f ih =>
      intro m h1 h2 b hb
      by_cases hm : m = []
      · subst hm; simp [toBlocksF] at hb
      · have hlen : 1 ≤ m.length := by
          cases m with
          | nil => exact absurd rfl hm
          | cons a t => simp
        simp only [toBlocksF, if_neg hm, List.mem_cons] at hb
        rcases hb with rfl | hb
        · rw [List.length_take]
          omega
        · exact ih (m.drop 16) (by rw [List.length_drop]; omega)
            (by rw [List.length_drop]; omega) b hb
  exact main l.length l (Nat.le_refl _) h

/-- Chunks of a byte list hold bytes. -/
theorem toBlocks_lt (l : List Nat) (h : ∀ x ∈ l, x < 256) :
    ∀ b ∈ toBlocks l, ∀ x ∈ b, x < 256 := by
  have main : ∀ (fuel : Nat) (m : List Nat), m.length ≤ fuel → (∀ x ∈ m, x < 256) →
      ∀ b ∈ toBlocksF fuel m, ∀ x ∈ b, x < 256 := by
    intro fuel
    induction fuel with
    | zero =>
      intro m h1 _ b hb
      have : m = [] := by
        cases m with
        | nil => rfl
        | cons a t => simp at h1
      subst this
      simp [toBlocksF] at hb
    | succ f ih =>
      intro m h1 h2 b hb
      by_cases hm : m = []
      · subst hm; simp [toBlocksF] at hb
      · have hlen : 1 ≤ m.length := by
          cases m with
          | nil => exact absurd rfl hm
          | cons a t => simp
        simp only [toBlocksF, if_neg hm, List.mem_cons] at hb
        rcases hb with rfl | hb
        · intro x hx
          exact h2 x (List.mem_of_mem_take hx)
        · exact ih (m.drop 16) (by rw [List.length_drop]; omega)
            (fun x hx => h2 x (List.mem_of_mem_drop hx)) b hb
  exact main l.length l (Nat.le_refl _) h

/-- Splitting a concatenation of 16-byte blocks recovers the blocks. -/
theorem toBlocks_flatten (L : List (List Nat)) (h : ∀ b ∈ L, b.length = 16) :
    toBlocks L.flatten = L := by
  induction L with
  | nil => rfl
  | cons b bs ih =>
    have hb16 : b.length = 16 := h b (List.mem_cons_self b bs)
    have hne : (b :: bs).flatten ≠ [] := by
      simp only [List.flatten_cons]
      intro hc
      have := congrArg List.length hc
      rw [List.length_append, hb16] at this
      simp at this
    rw [List.flatten_cons] at hne ⊢
    rw [toBlocks_ne_nil _ hne]
    rw [← hb16, List.take_left, List.drop_left]
    rw [hb16] at *
    rw [ih (fun v hv => h v (List.mem_cons_of_mem b hv))]

/-- The CBC encryption loop of `AES.encrypt`: xor each plaintext block
with the previous ciphertext (initially the IV), encrypt, emit, and
carry the ciphertext forward. -/
def cbcEncryptBlocks (ks : List Nat) : List Nat → List (List Nat) → List (List Nat)
  | _, [] => []
  | prev, b :: bs =>
    let enc := encryptBlock ks (zipXor b prev)
    enc :: cbcEncryptBlocks ks enc bs

/-- The CBC decryption loop of `AES.decrypt`: decrypt each ciphertext
block, xor with the previous ciphertext (initially the IV), emit, and
carry the ciphertext block forward. -/
def cbcDecryptBlocks (ks : List Nat) : List Nat → List (List Nat) → List (List Nat)
  | _, [] => []
  | prev, b :: bs =>
    let dec := zipXor (decryptBlock ks b) prev
    dec :: cbcDecryptBlocks ks b bs

/-- The method `AES.encrypt` of `src/aes/mod.ts`: pad with PKCS7, then
process the blocks in ECB or CBC fashion.  `this.iv!` is the stored IV
(present whenever the mode is CBC). -/
def encrypt (inst : AESInst) (data : List Nat) : List Nat :=
  let p := pad data
  match inst.mode with
  | Mode.ECB => ((toBlocks p).map (encryptBlock inst.key)).flatten
  | Mode.CBC => (cbcEncryptBlocks inst.key (inst.iv.getD []) (toBlocks p)).flatten

/-- The method `AES.decrypt` of `src/aes/mod.ts`: reject inputs that are
not a multiple of 16 bytes, process the blocks in ECB or CBC fashion,
then unpad.  A thrown error carries no output. -/
def decrypt (inst : AESInst) (data : List Nat) : Except String (List Nat) :=
  if data.length % 16 ≠ 0 then .error "Input should be multiple of 16"
  else
    let dec := match inst.mode with
      | Mode.ECB => ((toBlocks data).map (decryptBlock inst.key)).flatten
      | Mode.CBC => (cbcDecryptBlocks inst.key (inst.iv.getD []) (toBlocks data)).flatten
    unpad dec

/-- The call-level view of `encrypt`: the method reads `this.key`,
`this.mode` and `this.iv` but never assigns an instance field, so a call
returns the output together with the unchanged instance. -/
def encryptS (inst : AESInst) (data : List Nat) : List Nat × AESInst :=
  (encrypt inst data, inst)

/-- The call-level view of `decrypt`: no instance field is assigned. -/
def decryptS (inst : AESInst) (data : List Nat) : Except String (List Nat) × AESInst :=
  (decrypt inst data, inst)

/-- PKCS7 padding always produces a block-aligned buffer. -/
theorem pad_mod (data : List Nat) : (pad data).length % 16 = 0 := by
  simp only [pad, List.length_append, List.length_replicate]
  have h := Nat.mod_lt data.length (show 0 < 16 by omega)
  by_cases hz : 16 - data.length % 16 = 0
  · omega
  · rw [if_neg hz]
    omega

/-- PKCS7 padding keeps bytes bytes. -/
theorem pad_lt (data : List Nat) (h : ∀ x ∈ data, x < 256) :
    ∀ x ∈ pad data, x < 256 := by
  intro x hx
  simp only [pad, List.mem_append] at hx
  rcases hx with hx | hx
  · exact h x hx
  · rw [List.eq_of_mem_replicate hx]
    split <;> omega

/-- Unpadding a buffer extended by `v` copies of `v` drops them again. -/
theorem unpad_append_replicate (data : List Nat) (v : Nat) (h1 : 1 ≤ v) (h16 : v ≤ 16) :
    unpad (data ++ List.replicate v v) = .ok data := by
  have hlen : (data ++ List.replicate v v).length = data.length + v := by
    rw [List.length_append, List.length_replicate]
  have hlast : (data ++ List.replicate v v).getLast? = some v := by
    rw [List.getLast?_append, List.getLast?_replicate, if_neg (by omega)]
    rfl
  have hdrop : (data ++ List.replicate v v).drop ((data ++ List.replicate v v).length - v)
      = List.replicate v v := by
    rw [hlen, show data.length + v - v = data.length from by omega, List.drop_left]
  have hall : ((data ++ List.replicate v v).drop ((data ++ List.replicate v v).length - v)).all
      (fun x => x == v) = true := by
    rw [hdrop]
    simp [List.all_eq_true, List.eq_of_mem_replicate]
  have hstep : unpad (data ++ List.replicate v v)
      = if v = 0 ∨ 16 < v ∨ (data ++ List.replicate v v).length < v
            ∨ ¬ ((data ++ List.replicate v v).drop ((data ++ List.replicate v v).length - v)).all
                (fun x => x == v) then
          Except.error "invalid padding"
        else
          Except.ok ((data ++ List.replicate v v).take ((data ++ List.replicate v v).length - v)) := by
    unfold unpad
    rw [hlast]
  rw [hstep, if_neg]
  · rw [hlen, show data.length + v - v = data.length from by omega, List.take_left]
  · simp only [not_or, hall]
    refine ⟨by omega, by omega, by omega, by simp⟩

/-- Unpadding a PKCS7-padded buffer returns the original buffer. -/
theorem unpad_pad (data : List Nat) : unpad (pad data) = .ok data := by
  have hmod := Nat.mod_lt data.length (show 0 < 16 by omega)
  have hz : ¬ (16 - data.length % 16 = 0) := by omega
  have hpad : pad data
      = data ++ List.replicate (16 - data.length % 16) (16 - data.length % 16) := by
    simp only [pad]
    rw [if_neg hz]
  rw [hpad]
  exact unpad_append_replicate data _ (by omega) (by omega)

/-- Flattening 16-byte blocks gives 16 bytes per block. -/
theorem flatten_length16 (L : List (List Nat)) (h : ∀ b ∈ L, b.length = 16) :
    L.flatten.length = 16 * L.length := by
  induction L with
  | nil => rfl
  | cons b bs ih =>
    show (b ++ bs.flatten).length = _
    rw [List.length_append, h b (List.mem_cons_self b bs),
      ih (fun v hv => h v (List.mem_cons_of_mem b hv))]
    simp [List.length_cons]
    omega

/-- Xoring with the same list twice is the identity on the left operand. -/
theorem zipXor_cancel (b : List Nat) : ∀ (p : List Nat), b.length ≤ p.length →
    zipXor (zipXor b p) p = b := by
  induction b with
  | nil => intro p _; rfl
  | cons x tb ih =>
    intro p hlen
    cases p with
    | nil => simp at hlen
    | cons q tp =>
      simp only [zipXor, List.zipWith_cons_cons]
      rw [Nat.xor_cancel_right]
      have := ih tp (by simp at hlen; omega)
      simp only [zipXor] at this
      rw [this]

/-- Every CBC ciphertext block has 16 bytes. -/
theorem cbcEncryptBlocks_blocklen (ks : List Nat) :
    ∀ (bs : List (List Nat)) (prev : List Nat), ∀ c ∈ cbcEncryptBlocks ks prev bs, c.length = 16 := by
  intro bs
  induction bs with
  | nil => intro prev c hc; simp [cbcEncryptBlocks] at hc
  | cons b tl ih =>
    intro prev c hc
    simp only [cbcEncryptBlocks, List.mem_cons] at hc
    rcases hc with rfl | hc
    · exact encryptBlock_length ks _
    · exact ih _ c hc

/-- The CBC decryption loop undoes the CBC encryption loop. -/
theorem cbcDecrypt_cbcEncrypt (ks : List Nat) (hk : ∀ x ∈ ks, x < 256) :
    ∀ (bs : List (List Nat)) (prev : List Nat),
      prev.length = 16 → (∀ x ∈ prev, x < 256) →
      (∀ b ∈ bs, b.length = 16 ∧ ∀ x ∈ b, x < 256) →
      cbcDecryptBlocks ks prev (cbcEncryptBlocks ks prev bs) = bs := by
  intro bs
  induction bs with
  | nil => intro prev _ _ _; rfl
  | cons b tl ih =>
    intro prev hp16 hpb hbs
    obtain ⟨hb16, hbb⟩ := hbs b (List.mem_cons_self b tl)
    have hxlen : (zipXor b prev).length = 16 := by
      simp only [zipXor]
      rw [List.length_zipWith, hb16, hp16]
      rfl
    have hxb : ∀ x ∈ zipXor b prev, x < 256 := zipXor_lt _ _ hbb hpb
    simp only [cbcEncryptBlocks, cbcDecryptBlocks]
    rw [decryptBlock_encryptBlock ks _ hk hxlen hxb]
    rw [zipXor_cancel b prev (by omega)]
    rw [ih (encryptBlock ks (zipXor b prev)) (encryptBlock_length ks _)
      (encryptBlock_lt ks _ hk) (fun v hv => hbs v (List.mem_cons_of_mem b hv))]

/-- Inversion of a successful `AES` construction. -/
theorem newAES_ok (key : List Nat) (mopt : Option Mode) (iv : Option (List Nat))
    (inst : AESInst) (h : newAES key mopt iv = Except.ok inst) :
    inst = ⟨keyExpansion key, mopt.getD Mode.ECB, iv⟩
    ∧ (key.length = 16 ∨ key.length = 24 ∨ key.length = 32)
    ∧ (mopt.getD Mode.ECB = Mode.CBC → ∃ v, iv = some v ∧ v.length = 16) := by
  simp only [newAES] at h
  by_cases hm : mopt.getD Mode.ECB = Mode.CBC
  · rw [if_pos hm] at h
    cases hiv : iv with
    | none =>
      rw [hiv] at h
      exact Except.noConfusion h
    | some v =>
      rw [hiv] at h
      simp only [] at h
      by_cases hv : v.length ≠ 16
      · rw [if_pos hv] at h
        exact Except.noConfusion h
      · rw [if_neg hv] at h
        by_cases hklen : key.length = 16 ∨ key.length = 24 ∨ key.length = 32
        · rw [if_pos hklen] at h
          injection h with h2
          exact ⟨h2.symm, hklen, fun _ => ⟨v, rfl, by omega⟩⟩
        · rw [if_neg hklen] at h
          exact Except.noConfusion h
  · rw [if_neg hm] at h
    by_cases hklen : key.length = 16 ∨ key.length = 24 ∨ key.length = 32
    · rw [if_pos hklen] at h
      injection h with h2
      exact ⟨h2.symm, hklen, fun hc => absurd hc hm⟩
    · rw [if_neg hklen] at h
      exact Except.noConfusion h


/-- Unfolding of `encrypt` in ECB mode. -/
theorem encrypt_ECB (ks : List Nat) (iv : Option (List Nat)) (data : List Nat) :
    encrypt ⟨ks, Mode.ECB, iv⟩ data
      = ((toBlocks (pad data)).map (encryptBlock ks)).flatten := rfl

/-- Unfolding of `encrypt` in CBC mode. -/
theorem encrypt_CBC (ks : List Nat) (iv : Option (List Nat)) (data : List Nat) :
    encrypt ⟨ks, Mode.CBC, iv⟩ data
      = (cbcEncryptBlocks ks (iv.getD []) (toBlocks (pad data))).flatten := rfl

/-- Unfolding of `decrypt` in ECB mode. -/
theorem decrypt_ECB (ks : List Nat) (iv : Option (List Nat)) (data : List Nat) :
    decrypt ⟨ks, Mode.ECB, iv⟩ data
      = if data.length % 16 ≠ 0 then Except.error "Input should be multiple of 16"
        else unpad (((toBlocks data).map (decryptBlock ks)).flatten) := rfl

/-- Unfolding of `decrypt` in CBC mode. -/
theorem decrypt_CBC (ks : List Nat) (iv : Option (List Nat)) (data : List Nat) :
    decrypt ⟨ks, Mode.CBC, iv⟩ data
      = if data.length % 16 ≠ 0 then Except.error "Input should be multiple of 16"
        else unpad ((cbcDecryptBlocks ks (iv.getD []) (toBlocks data)).flatten) := rfl

/-- C1: for every valid configuration (a key of length 16, 24 or 32
bytes, a supported mode, a 16-byte IV when the mode requires one) and
every plaintext byte sequence, `decrypt (encrypt p)` on the same
configuration returns `p`. -/
theorem aes_roundtrip (key : List Nat) (mopt : Option Mode) (iv : Option (List Nat))
    (inst : AESInst) (hnew : newAES key mopt iv = Except.ok inst)
    (hkb : ∀ x ∈ key, x < 256)
    (hivb : ∀ v, iv = some v → ∀ x ∈ v, x < 256)
    (data : List Nat) (hdb : ∀ x ∈ data, x < 256) :
    decrypt inst (encrypt inst data) = Except.ok data := by
  obtain ⟨hinst, hklen, hcbc⟩ := newAES_ok key mopt iv inst hnew
  subst hinst
  have hk : ∀ x ∈ keyExpansion key, x < 256 := keyExpansion_lt key hkb
  have hpadb := pad_lt data hdb
  have hpmod := pad_mod data
  have hblen := toBlocks_blocklen (pad data) hpmod
  have hblt := toBlocks_lt (pad data) hpadb
  cases hI : mopt.getD Mode.ECB with
  | ECB =>
    have hmap16 : ∀ b ∈ (toBlocks (pad data)).map (encryptBlock (keyExpansion key)),
        b.length = 16 := by
      intro b hb
      simp only [List.mem_map] at hb
      obtain ⟨a, _, rfl⟩ := hb
      exact encryptBlock_length _ _
    have hElen : (((toBlocks (pad data)).map (encryptBlock (keyExpansion key))).flatten).length % 16
        = 0 := by
      rw [flatten_length16 _ hmap16]
      omega
    have hmaps : (((toBlocks (pad data)).map (encryptBlock (keyExpansion key))).map
        (decryptBlock (keyExpansion key))) = toBlocks (pad data) := by
      rw [List.map_map]
      have hcong : ∀ b ∈ toBlocks (pad data),
          (decryptBlock (keyExpansion key) ∘ encryptBlock (keyExpansion key)) b = id b :=
        fun b hb => decryptBlock_encryptBlock (keyExpansion key) b hk (hblen b hb) (hblt b hb)
      rw [List.map_congr_left hcong, List.map_id]
    rw [encrypt_ECB, decrypt_ECB]
    rw [if_neg (by simpa using hElen)]
    rw [toBlocks_flatten _ hmap16, hmaps, flatten_toBlocks, unpad_pad]
  | CBC =>
    obtain ⟨v, hveq, hv16⟩ := hcbc hI
    subst hveq
    have hvb : ∀ x ∈ v, x < 256 := hivb v rfl
    have hcb16 : ∀ c ∈ cbcEncryptBlocks (keyExpansion key) ((some v).getD [])
        (toBlocks (pad data)), c.length = 16 := cbcEncryptBlocks_blocklen _ _ _
    have hClen : ((cbcEncryptBlocks (keyExpansion key) ((some v).getD [])
        (toBlocks (pad data))).flatten).length % 16 = 0 := by
      rw [flatten_length16 _ hcb16]
      omega
    rw [encrypt_CBC, decrypt_CBC]
    rw [if_neg (by simpa using hClen)]
    rw [toBlocks_flatten _ hcb16]
    rw [cbcDecrypt_cbcEncrypt (keyExpansion key) hk (toBlocks (pad data)) ((some v).getD [])
      hv16 hvb (fun b hb => ⟨hblen b hb, hblt b hb⟩)]
    rw [flatten_toBlocks, unpad_pad]

/-- Chunks produced by `toBlocks` never exceed 16 bytes. -/
theorem toBlocks_le16 (l : List Nat) : ∀ b ∈ toBlocks l, b.length ≤ 16 := by
  have main : ∀ (fuel : Nat) (m : List Nat), m.length ≤ fuel →
      ∀ b ∈ toBlocksF fuel m, b.length ≤ 16 := by
    intro fuel
    induction fuel with
    | zero =>
      intro m h1 b hb
      have : m = [] := by
        cases m with
        | nil => rfl
        | cons a t => simp at h1
      subst this
      simp [toBlocksF] at hb
    | succ f ih =>
      intro m h1 b hb
      by_cases hm : m = []
      · subst hm; simp [toBlocksF] at hb
      · have hlen : 1 ≤ m.length := by
          cases m with
          | nil => exact absurd rfl hm
          | cons a t => simp
        simp only [toBlocksF, if_neg hm, List.mem_cons] at hb
        rcases hb with rfl | hb
        · rw [List.length_take]
          omega
        · exact ih (m.drop 16) (by rw [List.length_drop]; omega) b hb
  exact main l.length l (Nat.le_refl _)

/-- Modelled from the spec (section 4.3): the CFB encryption loop over
the AES forward block transform.  The AES CFB/OFB classes themselves
are not under `src/` (the tests import `AesCfb`/`AesOfb` from a file
that is absent); the keystream is the encryption of the feedback block,
a trailing partial block is xored against a truncated keystream prefix,
and the emitted ciphertext becomes the next feedback block. -/
def cfbEncryptBlocks (ks : List Nat) : List Nat → List (List Nat) → List (List Nat)
  | _, [] => []
  | prev, b :: bs =>
    let c := zipXor b (encryptBlock ks prev)
    c :: cfbEncryptBlocks ks c bs

/-- Modelled from the spec (section 4.3): the CFB decryption loop; the
keystream is still produced by the forward block transform, and the
consumed ciphertext block becomes the next feedback block. -/
def cfbDecryptBlocks (ks : List Nat) : List Nat → List (List Nat) → List (List Nat)
  | _, [] => []
  | prev, b :: bs =>
    let p := zipXor b (encryptBlock ks prev)
    p :: cfbDecryptBlocks ks b bs

/-- Modelled from the spec (section 4.3): the OFB loop, identical for
encryption and decryption; the feedback is the keystream itself. -/
def ofbBlocks (ks : List Nat) : List Nat → List (List Nat) → List (List Nat)
  | _, [] => []
  | prev, b :: bs =>
    let kstream := encryptBlock ks prev
    zipXor b kstream :: ofbBlocks ks kstream bs

/-- Modelled from the spec: whole-message CFB encryption; no padding is
ever applied. -/
def cfbEncrypt (ks iv data : List Nat) : List Nat :=
  (cfbEncryptBlocks ks iv (toBlocks data)).flatten

/-- Modelled from the spec: whole-message CFB decryption; no padding is
ever applied. -/
def cfbDecrypt (ks iv data : List Nat) : List Nat :=
  (cfbDecryptBlocks ks iv (toBlocks data)).flatten

/-- Modelled from the spec: whole-message OFB transform (encryption and
decryption are the same operation); no padding is ever applied. -/
def ofbApply (ks iv data : List Nat) : List Nat :=
  (ofbBlocks ks iv (toBlocks data)).flatten

/-- The CFB encryption loop preserves the total byte count. -/
theorem cfbEncryptBlocks_flatten_length (ks : List Nat) :
    ∀ (bs : List (List Nat)) (prev : List Nat), (∀ b ∈ bs, b.length ≤ 16) →
      ((cfbEncryptBlocks ks prev bs).flatten).length = bs.flatten.length := by
  intro bs
  induction bs with
  | nil => intro prev _; rfl
  | cons b tl ih =>
    intro prev hle
    have hb := hle b (List.mem_cons_self b tl)
    simp only [cfbEncryptBlocks, List.flatten_cons, List.length_append]
    rw [ih _ (fun v hv => hle v (List.mem_cons_of_mem b hv))]
    simp only [zipXor, List.length_zipWith, encryptBlock_length]
    omega

/-- The CFB decryption loop preserves the total byte count. -/
theorem cfbDecryptBlocks_flatten_length (ks : List Nat) :
    ∀ (bs : List (List Nat)) (prev : List Nat), (∀ b ∈ bs, b.length ≤ 16) →
      ((cfbDecryptBlocks ks prev bs).flatten).length = bs.flatten.length := by
  intro bs
  induction bs with
  | nil => intro prev _; rfl
  | cons b tl ih =>
    intro prev hle
    have hb := hle b (List.mem_cons_self b tl)
    simp only [cfbDecryptBlocks, List.flatten_cons, List.length_append]
    rw [ih _ (fun v hv => hle v (List.mem_cons_of_mem b hv))]
    simp only [zipXor, List.length_zipWith, encryptBlock_length]
    omega

/-- The OFB loop preserves the total byte count. -/
theorem ofbBlocks_flatten_length (ks : List Nat) :
    ∀ (bs : List (List Nat)) (prev : List Nat), (∀ b ∈ bs, b.length ≤ 16) →
      ((ofbBlocks ks prev bs).flatten).length = bs.flatten.length := by
  intro bs
  induction bs with
  | nil => intro prev _; rfl
  | cons b tl ih =>
    intro prev hle
    have hb := hle b (List.mem_cons_self b tl)
    simp only [ofbBlocks, List.flatten_cons, List.length_append]
    rw [ih _ (fun v hv => hle v (List.mem_cons_of_mem b hv))]
    simp only [zipXor, List.length_zipWith, encryptBlock_length]
    omega

/-- The 16-byte key with bytes 1 to 16, used by concrete scenarios. -/
def key16 : List Nat := [1,2,3,4,5,6,7,8,9,10,11,12,13,14,15,16]

/-- The 32-byte plaintext with bytes 1 to 16 twice. -/
def pt32 : List Nat := key16 ++ key16

/-- The single-block AES-128-ECB ciphertext of bytes 1 to 16 under the
key with bytes 1 to 16. -/
def cblock : List Nat :=
  [0x34,0xc3,0x3b,0x7f,0x14,0xfd,0x53,0xdc,0xea,0x25,0xe0,0x1a,0x02,0xe1,0x67,0x27]

/-- C1 witness: the roundtrip at the concrete AES-128-ECB instance with
key bytes 1 to 16 and plaintext `[1, 2, 3]`. -/
theorem aes_roundtrip_witness :
    decrypt ⟨keyExpansion key16, Mode.ECB, none⟩
        (encrypt ⟨keyExpansion key16, Mode.ECB, none⟩ [1, 2, 3]) = Except.ok [1, 2, 3] :=
  aes_roundtrip key16 none none ⟨keyExpansion key16, Mode.ECB, none⟩ rfl (by decide)
    (fun v hv => Option.noConfusion hv) [1, 2, 3] (by decide)

set_option maxRecDepth 65536 in
/-- C2 counterexample: with the key of bytes 1 to 16 in ECB mode, the
32-byte plaintext of bytes 1 to 16 twice does not encrypt to the 32-byte
ciphertext the claim states: PKCS7 appends a full padding block, so the
output has 48 bytes. -/
theorem C2_counterexample :
    encrypt ⟨keyExpansion key16, Mode.ECB, none⟩ pt32 ≠ cblock ++ cblock := by decide

set_option maxRecDepth 65536 in
/-- C2 (amended): with the key of bytes 1 to 16 in ECB mode, encrypting
the 32-byte plaintext of bytes 1 to 16 twice yields 48 bytes: the
claimed ciphertext block repeated twice (both ciphertext blocks
identical), followed by the encryption of the full 16-byte PKCS7
padding block. -/
theorem C2_ecb_ciphertext :
    encrypt ⟨keyExpansion key16, Mode.ECB, none⟩ pt32
      = cblock ++ cblock
        ++ [108,192,10,102,210,173,131,255,215,110,154,43,202,216,154,1] := by decide

/-- C3 witness: the key-expansion recurrence at the concrete 16-byte
key with bytes 1 to 16. -/
theorem keyExpansion_rijndael_witness :
    (key16.length = 16 ∨ key16.length = 24 ∨ key16.length = 32)
    ∧ ((∀ i < key16.length / 4,
          ((keyExpansion key16).drop (4 * i)).take 4 = (key16.drop (4 * i)).take 4)
      ∧ (∀ i, key16.length / 4 ≤ i → i < 4 * (key16.length / 4 + 6 + 1) →
          ((keyExpansion key16).drop (4 * i)).take 4
            = zipXor (((keyExpansion key16).drop (4 * (i - key16.length / 4))).take 4)
                (Tspec (key16.length / 4) i
                  (((keyExpansion key16).drop (4 * (i - 1))).take 4)))) :=
  ⟨by decide, keyExpansion_rijndael key16 (by decide)⟩

set_option maxRecDepth 4096 in
/-- C4 counterexample: `xtime` does not truncate to a byte: on input
128 it returns 283, which is not in the range 0 to 255 (the claimed
truncated value would be 27). -/
theorem C4_counterexample : xtime 128 = 283 ∧ ¬ xtime 128 < 256 := by decide

set_option maxRecDepth 4096 in
/-- C4 (amended): for every byte `x`, `xtime` returns `x` shifted left
one bit without truncation, xored with `0x1b` exactly when the high bit
of `x` was set; the result is below 512 and, reduced modulo 256 (the
truncation applied when the value is stored into a `Uint8Array`), it
equals the truncate-then-xor byte the claim describes. -/
theorem C4_xtime_behaviour : ∀ x, x < 256 →
    xtime x = (x <<< 1) ^^^ (if x &&& 0x80 ≠ 0 then 0x1b else 0)
    ∧ xtime x < 512
    ∧ xtime x % 256 = ((x <<< 1) % 256) ^^^ (if x &&& 0x80 ≠ 0 then 0x1b else 0) := by decide

/-- C4 witness: the amended description evaluated at the byte 128. -/
theorem C4_xtime_behaviour_witness :
    (128 : Nat) < 256
    ∧ (xtime 128 = (128 <<< 1) ^^^ (if (128 : Nat) &&& 0x80 ≠ 0 then 0x1b else 0)
      ∧ xtime 128 < 512
      ∧ xtime 128 % 256 = ((128 <<< 1) % 256) ^^^ (if (128 : Nat) &&& 0x80 ≠ 0 then 0x1b else 0)) :=
  ⟨by decide, C4_xtime_behaviour 128 (by decide)⟩

/-- C5: for every 16-byte state of bytes, `mixColumns` followed by
`invMixColumns` returns the original state, and likewise
`invMixColumns` followed by `mixColumns`. -/
theorem C5_mixColumns_roundtrip (s : List Nat) (h : s.length = 16)
    (hb : ∀ x ∈ s, x < 256) :
    invMixColumns (mixColumns s) = s ∧ mixColumns (invMixColumns s) = s :=
  ⟨invMixColumns_mixColumns s h hb, mixColumns_invMixColumns s h hb⟩

/-- C5 witness: the column-mix roundtrip at the concrete state of bytes
1 to 16. -/
theorem C5_mixColumns_roundtrip_witness :
    invMixColumns (mixColumns key16) = key16 ∧ mixColumns (invMixColumns key16) = key16 :=
  C5_mixColumns_roundtrip key16 (by decide) (by decide)

/-- C6 counterexample: construction with a 17-byte key, CBC mode and no
IV fails with the IV error, not with a key-length error: the IV
validation runs before the key-length validation. -/
theorem C6_counterexample :
    newAES (List.replicate 17 0) (some Mode.CBC) none = Except.error "IV is not set." := rfl

/-- C6 (amended): whenever the IV validation passes (ECB mode, or a
16-byte IV), construction with a key whose length is not 16, 24 or 32
bytes fails with the key-length error; construction with a key of
length 16, 24 or 32 never raises the key-length error, whatever the
mode and IV. -/
theorem C6_key_length_validation :
    (∀ (key : List Nat) (mopt : Option Mode) (iv : Option (List Nat)),
      (mopt.getD Mode.ECB = Mode.ECB ∨ ∃ v, iv = some v ∧ v.length = 16) →
      ¬ (key.length = 16 ∨ key.length = 24 ∨ key.length = 32) →
      newAES key mopt iv = Except.error "Key should be 16, 24 or 32 bytes long")
    ∧ (∀ (key : List Nat) (mopt : Option Mode) (iv : Option (List Nat)),
      (key.length = 16 ∨ key.length = 24 ∨ key.length = 32) →
      newAES key mopt iv ≠ Except.error "Key should be 16, 24 or 32 bytes long") := by
  constructor
  · intro key mopt iv hpre hklen
    simp only [newAES]
    rcases hpre with hecb | ⟨v, rfl, hv16⟩
    · rw [hecb]
      rw [if_neg (by simp)]
      rw [if_neg hklen]
    · by_cases hm : mopt.getD Mode.ECB = Mode.CBC
      · rw [if_pos hm]
        simp only []
        rw [if_neg (by omega)]
        rw [if_neg hklen]
      · rw [if_neg hm]
        rw [if_neg hklen]
  · intro key mopt iv hklen h
    simp only [newAES] at h
    by_cases hm : mopt.getD Mode.ECB = Mode.CBC
    · rw [if_pos hm] at h
      cases iv with
      | none => simp at h
      | some v =>
        simp only [] at h
        by_cases hv : v.length ≠ 16
        · rw [if_pos hv] at h
          simp at h
        · rw [if_neg hv] at h
          rw [if_pos hklen] at h
          exact Except.noConfusion h
    · rw [if_neg hm] at h
      rw [if_pos hklen] at h
      exact Except.noConfusion h

/-- C6 witness: a 17-byte key under the default ECB mode raises the
key-length error, and the valid 16-byte key never does. -/
theorem C6_key_length_validation_witness :
    newAES (List.replicate 17 0) none none
      = Except.error "Key should be 16, 24 or 32 bytes long"
    ∧ newAES key16 none none ≠ Except.error "Key should be 16, 24 or 32 bytes long" :=
  ⟨C6_key_length_validation.1 (List.replicate 17 0) none none (Or.inl rfl) (by decide),
    C6_key_length_validation.2 key16 none none (by decide)⟩

/-- C7: in CFB and OFB mode the padding scheme is never invoked (the
operations are defined without any padding step) and, for every key
schedule, IV and input byte sequence, the output length equals the
input length exactly. -/
theorem C7_cfb_ofb_length (ks iv data : List Nat) :
    (cfbEncrypt ks iv data).length = data.length
    ∧ (cfbDecrypt ks iv data).length = data.length
    ∧ (ofbApply ks iv data).length = data.length := by
  refine ⟨?_, ?_, ?_⟩
  · unfold cfbEncrypt
    rw [cfbEncryptBlocks_flatten_length ks (toBlocks data) iv (toBlocks_le16 data)]
    rw [flatten_toBlocks]
  · unfold cfbDecrypt
    rw [cfbDecryptBlocks_flatten_length ks (toBlocks data) iv (toBlocks_le16 data)]
    rw [flatten_toBlocks]
  · unfold ofbApply
    rw [ofbBlocks_flatten_length ks (toBlocks data) iv (toBlocks_le16 data)]
    rw [flatten_toBlocks]

/-- C8: in either mode, `decrypt` called on a ciphertext whose length
is not a multiple of 16 bytes fails with the input-length error; the
error carries no partial output. -/
theorem C8_decrypt_length_error (inst : AESInst) (data : List Nat)
    (h : data.length % 16 ≠ 0) :
    decrypt inst data = Except.error "Input should be multiple of 16" := by
  unfold decrypt
  rw [if_pos h]

/-- C8 witness: a 17-byte ciphertext is rejected. -/
theorem C8_decrypt_length_error_witness :
    decrypt ⟨keyExpansion key16, Mode.ECB, none⟩ (List.replicate 17 0)
      = Except.error "Input should be multiple of 16" :=
  C8_decrypt_length_error ⟨keyExpansion key16, Mode.ECB, none⟩ (List.replicate 17 0) (by decide)

/-- C9 counterexample: on a concrete CBC instance, encrypting a second
message after a first one on the same instance yields exactly the fresh
encryption of the second message, contradicting the claim that the two
differ: `encrypt` never mutates the instance, and the feedback variable
is re-initialised from the stored IV on every call. -/
theorem C9_counterexample :
    (encryptS ((encryptS ⟨keyExpansion key16, Mode.CBC, some key16⟩ (List.replicate 16 0)).2)
        (List.replicate 16 7)).1
      = (encryptS ⟨keyExpansion key16, Mode.CBC, some key16⟩ (List.replicate 16 7)).1 := rfl

/-- C9 (amended): the methods never mutate the instance: the CBC
feedback variable is a local initialised from the stored IV on every
call, so a second `encrypt` (or `decrypt`) call on the same instance
starts from the IV again and equals the call on a fresh instance. -/
theorem C9_no_feedback_state (inst : AESInst) (data : List Nat) :
    (encryptS inst data).2 = inst
    ∧ (decryptS inst data).2 = inst
    ∧ (∀ p1 p2 : List Nat,
        (encryptS ((encryptS inst p1).2) p2).1 = (encryptS inst p2).1)
    ∧ (∀ c1 c2 : List Nat,
        (decryptS ((decryptS inst c1).2) c2).1 = (decryptS inst c2).1) :=
  ⟨rfl, rfl, fun _ _ => rfl, fun _ _ => rfl⟩

/-- C10: in ECB mode the IV option is never validated and has no
effect: for every valid key, construction succeeds whatever the IV
(absent or of any length), and the `encrypt`/`decrypt` outputs are
identical for any two IV values. -/
theorem C10_ecb_iv_noninterference (key : List Nat) (mopt : Option Mode)
    (iv iv1 iv2 : Option (List Nat))
    (hm : mopt.getD Mode.ECB = Mode.ECB)
    (hklen : key.length = 16 ∨ key.length = 24 ∨ key.length = 32) :
    newAES key mopt iv = Except.ok ⟨keyExpansion key, Mode.ECB, iv⟩
    ∧ (∀ data, encrypt ⟨keyExpansion key, Mode.ECB, iv1⟩ data
        = encrypt ⟨keyExpansion key, Mode.ECB, iv2⟩ data)
    ∧ (∀ data, decrypt ⟨keyExpansion key, Mode.ECB, iv1⟩ data
        = decrypt ⟨keyExpansion key, Mode.ECB, iv2⟩ data) := by
  refine ⟨?_, ?_, ?_⟩
  · simp only [newAES, hm]
    rw [if_neg (by simp)]
    rw [if_pos hklen]
  · intro data
    rw [encrypt_ECB, encrypt_ECB]
  · intro data
    rw [decrypt_ECB, decrypt_ECB]

/-- C10 witness: the concrete valid key with a 3-byte IV at
construction and two unrelated IVs for the operations. -/
theorem C10_ecb_iv_noninterference_witness :
    newAES key16 none (some [1, 2, 3])
      = Except.ok ⟨keyExpansion key16, Mode.ECB, some [1, 2, 3]⟩
    ∧ (∀ data, encrypt ⟨keyExpansion key16, Mode.ECB, none⟩ data
        = encrypt ⟨keyExpansion key16, Mode.ECB, some (List.replicate 20 5)⟩ data)
    ∧ (∀ data, decrypt ⟨keyExpansion key16, Mode.ECB, none⟩ data
        = decrypt ⟨keyExpansion key16, Mode.ECB, some (List.replicate 20 5)⟩ data) :=
  C10_ecb_iv_noninterference key16 none (some [1, 2, 3]) none (some (List.replicate 20 5))
    rfl (by decide)

end Crypto

